import Mathlib

/-!
Verification development for the `dbmaker` package of `word_db_server`.

The Go sources of `cmd/dbmaker`/`dbmaker` are embedded shallowly:

* pure helpers (`fields`, `findLexSymbols`, `containsWordUniqueToLexSplit`,
  `containsUpdateToLex`, `populateAlphsDefs`, the `AlphByCombos` comparator,
  `pointValue`, `numVowels`) become Lean functions;
* the SQLite side of `CreateLexiconDatabase` is modelled as a trace of
  database events (`DbEvent`); statements executed through the driver may
  fail, which is modelled by failure oracles (`Oracles`); `log.Fatal` /
  a runtime panic terminate the process, which the trace model records in
  the `fatal` flag of `BuildResult`.  A replay function (`replay`) gives
  the committed database contents of a trace: rows inserted inside an
  explicit transaction reach the database only when the transaction's
  commit event is replayed, matching SQLite's behaviour when a process
  dies with an open transaction (implicit rollback);
* `MigrateLexiconDatabase` becomes a function on a small database state
  (`MigDb`) holding the `db_version` table and the list of applied
  migrations.  The per-migration column backfills read and rewrite the
  `alphagrams` table only; they do not touch `db_version`, so they are
  abstracted into the `applied` marker list, which is all the claims about
  the migration state machine quantify over.

External collaborators (the macondo dawg/gaddag engine, letter
distributions, the lexicon registry) are parameters of the model, exactly
as the spec treats them: membership tests are `String → Bool` functions,
`MakeAlphagram` and the combination counter are function parameters.

Go specifics kept bit-for-bit: `uint8` accumulation wraps modulo 256,
the `uint32` probability counters wrap modulo 2^32, Go string comparison
is bytewise (UTF-8 byte order equals code-point order, `listLtB`),
`len(word)` counts bytes (`String.utf8ByteSize`), and Go's `sort.Sort`
with the `AlphByCombos.Less` comparator is modelled by `insertionSort`
with the reflexive closure of that comparator (the comparator is a strict
total order on the alphagram map's distinct keys, so every correct sort
produces the same list).
-/

namespace WordDb

/-- Bytewise "less than" on UTF-8 strings represented as char lists; Go compares
strings byte by byte and UTF-8 order coincides with code-point order. -/
def listLtB : List Char → List Char → Bool
  | [], [] => false
  | [], _ :: _ => true
  | _ :: _, [] => false
  | a :: as, b :: bs =>
    if a.toNat < b.toNat then true else if b.toNat < a.toNat then false else listLtB as bs

/-- Reflexive closure of the Go string order, used for `sort.Strings`. -/
def strLe (a b : String) : Prop := listLtB b.data a.data = false

instance : DecidableRel strLe := fun _ _ => instDecidableEqBool _ _

/-- Tokenizer worker for `strings.Fields`: splits around maximal whitespace runs. -/
def fieldsAux : List Char → List Char → List String
  | [], acc => if acc.isEmpty then [] else [⟨acc.reverse⟩]
  | c :: rest, acc =>
    if c.isWhitespace then
      if acc.isEmpty then fieldsAux rest []
      else ⟨acc.reverse⟩ :: fieldsAux rest []
    else fieldsAux rest (c :: acc)

/-- Model of Go `strings.Fields`: the whitespace-separated tokens of a line. -/
def fields (s : String) : List String := fieldsAux s.data []

/-- Model of Go `strings.ToUpper` (per-character uppercasing). -/
def toUpperStr (s : String) : String := ⟨s.data.map Char.toUpper⟩

/-- Worker for Go `strings.Contains` on char lists. -/
def strContainsAux (sub : List Char) : List Char → Bool
  | [] => sub.isEmpty
  | c :: rest => sub.isPrefixOf (c :: rest) || strContainsAux sub rest

/-- Model of Go `strings.Contains s sub`. -/
def strContains (s sub : String) : Bool := strContainsAux sub.data s.data

/-- The `Alphagram` struct of dbmaker.go (lines 53-60).  `combinations` is a
`uint64` supplied by the external combination counter; no arithmetic is ever
performed on it, so it is modelled as `Nat`. -/
structure Alphagram where
  words : List String
  combinations : Nat
  alphagram : String
  wordCount : Nat
  uniqToLexSplit : Nat
  updateToLex : Nat
deriving Repr, DecidableEq

/-- Method `Alphagram.pointValue` (dbmaker.go lines 66-72): sums the letter
point values of the alphagram's runes into a `uint8`, wrapping modulo 256 at
each addition. -/
def Alphagram.pointValue (a : Alphagram) (pointValues : Char → Nat) : Nat :=
  a.alphagram.data.foldl (fun pts rn => (pts + pointValues rn) % 256) 0

/-- Method `Alphagram.numVowels` (dbmaker.go lines 74-87): counts runes of the
alphagram that are in the distribution's vowel set, in a `uint8`. -/
def Alphagram.numVowels (a : Alphagram) (vowels : List Char) : Nat :=
  a.alphagram.data.foldl (fun n rn => if rn ∈ vowels then (n + 1) % 256 else n) 0

/-- The comparator `AlphByCombos.Less` (dbmaker.go lines 93-102): combination
count descending, alphagram string ascending as the tie-break. -/
def AlphByCombos.Less (a b : Alphagram) : Bool :=
  if a.combinations == b.combinations then listLtB a.alphagram.data b.alphagram.data
  else decide (b.combinations < a.combinations)

/-- Reflexive closure of `AlphByCombos.Less`, the order produced by
`sort.Sort(AlphByCombos(alphs))`: `a` may come before `b` iff `Less b a` is
false. -/
def alphLe (a b : Alphagram) : Prop := AlphByCombos.Less b a = false

instance : DecidableRel alphLe := fun _ _ => instDecidableEqBool _ _

/-- Constant `CurrentVersion = 6` (dbmaker.go line 110). -/
def CurrentVersion : Int := 6

/-- Modelled from the spec: the constant `LexiconUpdateSymbol` is defined in a
repository file that is not part of the provided sources; per the spec and the
comment on `containsUpdateToLex` ("All updates to a lexicon will be indicated
with a + symbol"), it is the update marker `"+"`. -/
def LexiconUpdateSymbol : String := "+"

/-- Modelled from the spec: the constant `CSWOnlySymbol` is defined outside the
provided sources; per the comment on `containsWordUniqueToLexSplit` ("If the
lexiconName is CSW19, the string to look for is #"), it is `"#"`. -/
def CSWOnlySymbol : String := "#"

/-- Modelled from the spec: the constant `TWLOnlySymbol` is defined outside the
provided sources; per the comment on `containsWordUniqueToLexSplit` (the marker
for America/NWL18 is a $ sign), it is `"$"`. -/
def TWLOnlySymbol : String := "$"

/-- Modelled from the spec: `FamilyName` values `FamilyCSW`/`FamilyTWL` come
from the lexicon registry file, which is not part of the provided sources.
Only equality of family names matters to the embedded code. -/
def FamilyCSW : String := "CSW"

/-- Modelled from the spec: sibling family identifier, see `FamilyCSW`. -/
def FamilyTWL : String := "TWL"

/-- Function `findLexSymbols` (dbmaker.go lines 698-718).  The two latest
sibling-edition dictionaries and the optional prior-edition dictionary enter as
membership tests (Go calls `gaddag.FindWord` on their dawgs). -/
def findLexSymbols (word : String) (latestCSW latestTWL : String → Bool)
    (lexFamily : String) (priorLex : Option (String → Bool)) : String :=
  let symbols := ""
  let symbols :=
    match priorLex with
    | some priorDawg =>
        if !priorDawg word && !strContains symbols LexiconUpdateSymbol then
          symbols ++ LexiconUpdateSymbol
        else symbols
    | none => symbols
  let symbols :=
    if lexFamily == FamilyCSW && !latestTWL word && !strContains symbols CSWOnlySymbol then
      symbols ++ CSWOnlySymbol
    else symbols
  let symbols :=
    if lexFamily == FamilyTWL && !latestCSW word && !strContains symbols TWLOnlySymbol then
      symbols ++ TWLOnlySymbol
    else symbols
  symbols

/-- Function `containsWordUniqueToLexSplit` (dbmaker.go lines 728-736): 1 iff
some member word's symbol string contains a `$` or a `#`. -/
def containsWordUniqueToLexSplit : List String → Nat
  | [] => 0
  | symbols :: rest =>
    if strContains symbols "$" || strContains symbols "#" then 1
    else containsWordUniqueToLexSplit rest

/-- Function `containsUpdateToLex` (dbmaker.go lines 739-747): 1 iff some member
word's symbol string contains a `+`. -/
def containsUpdateToLex : List String → Nat
  | [] => 0
  | symbols :: rest =>
    if strContains symbols "+" then 1 else containsUpdateToLex rest

/-- Lookup in a Go map modelled as an association list. -/
def mapLookup {α : Type} (m : List (String × α)) (k : String) : Option α :=
  (m.find? (fun p => p.1 == k)).map (fun p => p.2)

/-- Assignment `m[k] = v` on a Go map modelled as an association list: replace
in place when the key is present, append otherwise. -/
def mapSet {α : Type} (m : List (String × α)) (k : String) (v : α) : List (String × α) :=
  if m.any (fun p => p.1 == k) then m.map (fun p => if p.1 == k then (k, v) else p)
  else m ++ [(k, v)]

/-- Modelled from the spec: `addToDefinitions` is not part of the provided
sources.  Per §4.1 of the spec the aggregator produces a word → definition
mapping in which the last definition wins when a word repeats. -/
def addToDefinitions (word defn : String) (defs : List (String × String)) :
    List (String × String) :=
  mapSet defs word defn

/-- Modelled from the spec: `expandDefinitions` is not part of the provided
sources.  With definitions kept as plain last-write-wins strings it is the
identity on the accumulated word → definition mapping. -/
def expandDefinitions (defs : List (String × String)) : List (String × String) := defs

/-- One input line of the word list (dbmaker.go lines 769-775): `none` for a
line without tokens, otherwise the uppercased first token and the remaining
tokens rejoined with single spaces. -/
def lineEntry (line : String) : Option (String × String) :=
  match fields line with
  | [] => none
  | w :: rest => some (toUpperStr w, String.intercalate " " rest)

/-- Result of `populateAlphsDefs`, instrumented with the trace of arguments
passed to the external combination counter (`comboCalls` records one entry per
call of `combinations(alphagram, true)`), so that call counts are observable
in the pure model. -/
structure PopulateResult where
  definitionMap : List (String × String)
  alphagrams : List (String × Alphagram)
  comboCalls : List String
deriving Repr, DecidableEq

/-- The scanner loop of `populateAlphsDefs` (dbmaker.go lines 768-789): per
non-empty line, record the definition, canonicalize the uppercased word to its
alphagram, and either create the alphagram class (fetching its combination
count, normalized flag true) or append the word to the existing class. -/
def populateLoop (combinations : String → Bool → Nat) (mkAlphagram : String → String) :
    List String → List (String × String) → List (String × Alphagram) → List String →
    PopulateResult
  | [], defs, alphs, calls => ⟨defs, alphs, calls⟩
  | line :: rest, defs, alphs, calls =>
    match lineEntry line with
    | none => populateLoop combinations mkAlphagram rest defs alphs calls
    | some (word, definition) =>
      let defs := addToDefinitions word definition defs
      let alphagram := mkAlphagram word
      match mapLookup alphs alphagram with
      | none =>
          populateLoop combinations mkAlphagram rest defs
            (mapSet alphs alphagram ⟨[word], combinations alphagram true, alphagram, 0, 0, 0⟩)
            (calls ++ [alphagram])
      | some alph =>
          populateLoop combinations mkAlphagram rest defs
            (mapSet alphs alphagram { alph with words := alph.words ++ [word] })
            calls

/-- Function `populateAlphsDefs` (dbmaker.go lines 760-795).  The word-list
file enters as `Option (List String)`: `none` models `os.Open` failing, whose
error the code discards (`file, _ := os.Open(filename)` with the comment
`XXX: Check error`), after which the scanner yields nothing and both maps stay
empty. -/
def populateAlphsDefs (fileContents : Option (List String))
    (combinations : String → Bool → Nat) (mkAlphagram : String → String) : PopulateResult :=
  match fileContents with
  | none => { definitionMap := expandDefinitions [], alphagrams := [], comboCalls := [] }
  | some lines =>
    let r := populateLoop combinations mkAlphagram lines [] [] []
    { r with definitionMap := expandDefinitions r.definitionMap }

/-- Function `alphaMapValues` (dbmaker.go lines 750-758): the values of the
alphagram map.  Go iterates the map in unspecified order; the model uses
insertion order, which is immaterial because the values are immediately sorted
by a comparator that is a strict total order on the map's distinct keys. -/
def alphaMapValues (theMap : List (String × Alphagram)) : List Alphagram :=
  theMap.map (fun p => p.2)

/-- The uppercased first tokens of the non-empty lines of a word list, in file
order and with multiplicity. -/
def wordTokens (fileContents : Option (List String)) : List String :=
  match fileContents with
  | none => []
  | some lines => lines.filterMap (fun l => (lineEntry l).map (fun p => p.1))

/-- One row of the `alphagrams` table, in schema column order. -/
structure AlphaRow where
  probability : Nat
  alphagram : String
  length : Nat
  combinations : Nat
  numAnagrams : Nat
  pointValue : Nat
  numVowels : Nat
  uniqToLexSplit : Nat
  updateToLex : Nat
  difficulty : Nat
deriving Repr, DecidableEq

/-- One row of the `words` table, in schema column order. -/
structure WordRow where
  word : String
  alphagram : String
  lexiconSymbols : String
  definition : String
  frontHooks : String
  backHooks : String
  innerFrontHook : Nat
  innerBackHook : Nat
deriving Repr, DecidableEq

/-- Database statements executed by `CreateLexiconDatabase`, in execution
order: inserts prepared on the main transaction, the main commit, inserts on
the deleted-words transaction, its commit, and the auto-committed version
stamp. -/
inductive DbEvent where
  | insertAlpha (r : AlphaRow)
  | insertWord (r : WordRow)
  | commitMain
  | insertDeleted (word : String) (length : Nat)
  | commitDeleted
  | insertVersion (v : Int)
deriving Repr, DecidableEq

/-- Committed contents of the four tables. -/
structure Db where
  alphagrams : List AlphaRow
  words : List WordRow
  deletedwords : List (String × Nat)
  dbVersion : List Int
deriving Repr, DecidableEq

/-- Replay state: committed tables plus the rows pending in each open
transaction. -/
structure ReplaySt where
  db : Db
  pendingA : List AlphaRow
  pendingW : List WordRow
  pendingD : List (String × Nat)
deriving Repr, DecidableEq

/-- Transactional semantics of one database event: inserts on a transaction
accumulate as pending rows and reach the tables only at the matching commit;
the version insert runs outside any explicit transaction and auto-commits. -/
def replayStep (st : ReplaySt) (e : DbEvent) : ReplaySt :=
  match e with
  | .insertAlpha r => { st with pendingA := st.pendingA ++ [r] }
  | .insertWord r => { st with pendingW := st.pendingW ++ [r] }
  | .commitMain =>
      { st with
        db := { st.db with
                  alphagrams := st.db.alphagrams ++ st.pendingA
                  words := st.db.words ++ st.pendingW }
        pendingA := [], pendingW := [] }
  | .insertDeleted w n => { st with pendingD := st.pendingD ++ [(w, n)] }
  | .commitDeleted =>
      { st with
        db := { st.db with deletedwords := st.db.deletedwords ++ st.pendingD }
        pendingD := [] }
  | .insertVersion v => { st with db := { st.db with dbVersion := st.db.dbVersion ++ [v] } }

/-- Committed database contents after replaying a trace from an empty
database; rows pending in a never-committed transaction are rolled back. -/
def replay (tr : List DbEvent) : Db :=
  (tr.foldl replayStep ⟨⟨[], [], [], []⟩, [], [], []⟩).db

/-- Alphagram rows inserted in a trace segment. -/
def alphaRowsOf (tr : List DbEvent) : List AlphaRow :=
  tr.filterMap (fun e => match e with | .insertAlpha r => some r | _ => none)

/-- Word rows inserted in a trace segment. -/
def wordRowsOf (tr : List DbEvent) : List WordRow :=
  tr.filterMap (fun e => match e with | .insertWord r => some r | _ => none)

/-- Context of the prior edition in the build's family: its dictionary
membership test and its word-list file with the adapters needed to re-run
`populateAlphsDefs` on it. -/
structure PriorLex where
  dawg : String → Bool
  file : Option (List String)
  combinations : String → Bool → Nat
  mkAlphagram : String → String

/-- Inputs of `CreateLexiconDatabase` after the database file has been
created: the current lexicon's word list and adapters, the lexicon registry
results (family, latest sibling editions, optional prior edition), and the
hook/difficulty adapters of the lexical engine. -/
structure BuildCtx where
  lexiconFile : Option (List String)
  combinations : String → Bool → Nat
  mkAlphagram : String → String
  letterPoints : Char → Nat
  vowels : List Char
  lexFamily : String
  latestCSWDawg : String → Bool
  latestTWLDawg : String → Bool
  priorLex : Option PriorLex
  curDawg : String → Bool
  frontHooksOf : String → String
  backHooksOf : String → String
  innerFrontOf : String → Bool
  innerBackOf : String → Bool
  difficultyOf : String → Nat

/-- Failure oracles for the fallible driver statements: a true verdict means
that `Exec` returns an error for that row. -/
structure Oracles where
  failWord : WordRow → Bool
  failAlpha : AlphaRow → Bool
  failDeleted : String × Nat → Bool
  failVersion : Bool

/-- Trace of the driver statements a build executed, and whether the process
terminated abnormally (`log.Fatal` or a runtime panic). -/
structure BuildResult where
  trace : List DbEvent
  fatal : Bool
deriving Repr, DecidableEq

/-- The `words` row built for one member word (dbmaker.go lines 236-254). -/
def mkWordRow (ctx : BuildCtx) (defs : List (String × String)) (alphagram w : String) :
    WordRow :=
  { word := w
    alphagram := alphagram
    lexiconSymbols :=
      findLexSymbols w ctx.latestCSWDawg ctx.latestTWLDawg ctx.lexFamily
        (ctx.priorLex.map PriorLex.dawg)
    definition := (mapLookup defs w).getD ""
    frontHooks := ctx.frontHooksOf w
    backHooks := ctx.backHooksOf w
    innerFrontHook := if ctx.innerFrontOf w then 1 else 0
    innerBackHook := if ctx.innerBackOf w then 1 else 0 }

/-- The inner word loop of `CreateLexiconDatabase` (dbmaker.go lines 236-256):
insert one `words` row per member word — the driver error of `wordStmt.Exec`
is discarded by the code, so a failed insert leaves no row and the loop
continues — and collect each word's symbol string. -/
def wordLoop (ctx : BuildCtx) (orl : Oracles) (defs : List (String × String))
    (alphagram : String) : List String → List DbEvent × List String
  | [] => ([], [])
  | w :: ws =>
    let row := mkWordRow ctx defs alphagram w
    let r := wordLoop ctx orl defs alphagram ws
    (if orl.failWord row then r.1 else DbEvent.insertWord row :: r.1,
     row.lexiconSymbols :: r.2)

/-- Post-increment of the per-length probability counter `probs[wl]++`
(dbmaker.go line 233); the counters are `uint32`, wrapping modulo 2^32. -/
def bump (probs : Nat → Nat) (wl : Nat) : Nat → Nat :=
  fun i => if i = wl then (probs wl + 1) % 4294967296 else probs i

/-- The `alphagrams` row built for one class (dbmaker.go lines 258-263). -/
def mkAlphaRow (ctx : BuildCtx) (prob wl : Nat) (a : Alphagram) (syms : List String) :
    AlphaRow :=
  { probability := prob
    alphagram := a.alphagram
    length := wl
    combinations := a.combinations
    numAnagrams := a.words.length
    pointValue := a.pointValue ctx.letterPoints
    numVowels := a.numVowels ctx.vowels
    uniqToLexSplit := containsWordUniqueToLexSplit syms
    updateToLex := containsUpdateToLex syms
    difficulty := ctx.difficultyOf a.alphagram }

/-- The main loop of `CreateLexiconDatabase` (dbmaker.go lines 227-266) over
the sorted classes: bump the per-length counter for lengths up to 15, insert
the member word rows, then insert the alphagram row.  Reading `probs[wl]` for
the insert panics when `wl > 15` (`probs` has 16 entries), and a failing
alphagram insert hits `exitIfError`; both terminate the process, truncating
the trace.  Word-insert failures are ignored (their `Exec` error is
discarded). -/
def mainLoop (ctx : BuildCtx) (orl : Oracles) (defs : List (String × String)) :
    (Nat → Nat) → List Alphagram → List DbEvent × Bool
  | _, [] => ([], false)
  | probs, a :: rest =>
    let wl := a.alphagram.length
    let probs := if wl ≤ 15 then bump probs wl else probs
    let w := wordLoop ctx orl defs a.alphagram a.words
    if 15 < wl then (w.1, true)
    else
      let row := mkAlphaRow ctx (probs wl) wl a w.2
      if orl.failAlpha row then (w.1, true)
      else
        let r := mainLoop ctx orl defs probs rest
        (w.1 ++ (DbEvent.insertAlpha row :: r.1), r.2)

/-- The deleted-words insert loop (dbmaker.go lines 295-298): each insert goes
through `exitIfError`, so the first failure terminates the process. -/
def deletedLoop (orl : Oracles) : List String → List DbEvent × Bool
  | [] => ([], false)
  | w :: ws =>
    if orl.failDeleted (w, w.utf8ByteSize) then ([], true)
    else
      let r := deletedLoop orl ws
      (DbEvent.insertDeleted w w.utf8ByteSize :: r.1, r.2)

/-- The current lexicon's word → definition map (dbmaker.go line 181). -/
def defsOf (ctx : BuildCtx) : List (String × String) :=
  (populateAlphsDefs ctx.lexiconFile ctx.combinations ctx.mkAlphagram).definitionMap

/-- The current lexicon's alphagram map (dbmaker.go line 181). -/
def alphMapOf (ctx : BuildCtx) : List (String × Alphagram) :=
  (populateAlphsDefs ctx.lexiconFile ctx.combinations ctx.mkAlphagram).alphagrams

/-- The classes sorted by `sort.Sort(AlphByCombos(alphs))` (dbmaker.go lines
184-185). -/
def sortedAlphsOf (ctx : BuildCtx) : List Alphagram :=
  List.insertionSort alphLe (alphaMapValues (alphMapOf ctx))

/-- Deletion detection (dbmaker.go lines 269-280): when a prior edition
exists, re-run `populateAlphsDefs` on its word list and keep every word of the
resulting definition map that the current dictionary lacks. -/
def deletedWordsOf (ctx : BuildCtx) : List String :=
  match ctx.priorLex with
  | none => []
  | some p =>
    ((populateAlphsDefs p.file p.combinations p.mkAlphagram).definitionMap.map
        (fun q => q.1)).filter (fun w => !ctx.curDawg w)

/-- The persistence phase of `CreateLexiconDatabase` (dbmaker.go lines
181-307): the main transaction with all alphagram and word inserts, its
commit, then — only when deletions were found — a second transaction with the
lexicographically sorted deleted words, and finally the auto-committed version
stamp.  A fatal error stops the process where it happens, leaving the trace
truncated. -/
def runBuild (ctx : BuildCtx) (orl : Oracles) : BuildResult :=
  let m := mainLoop ctx orl (defsOf ctx) (fun _ => 0) (sortedAlphsOf ctx)
  if m.2 then { trace := m.1, fatal := true }
  else
    let trace1 := m.1 ++ [DbEvent.commitMain]
    let dw := deletedWordsOf ctx
    let d := if 0 < dw.length then deletedLoop orl (List.insertionSort strLe dw)
             else ([], false)
    if d.2 then { trace := trace1 ++ d.1, fatal := true }
    else
      let trace2 := trace1 ++ d.1 ++ (if 0 < dw.length then [DbEvent.commitDeleted] else [])
      if orl.failVersion then { trace := trace2, fatal := true }
      else { trace := trace2 ++ [DbEvent.insertVersion CurrentVersion], fatal := false }

/-- Number of classes of a given length in a class list. -/
def countLen (s : List Alphagram) (L : Nat) : Nat :=
  (s.filter (fun a => a.alphagram.length == L)).length

/-- Ranks `n+1, n+2, …` paired with the elements of a list; the shape taken by
one length cohort's `(probability, combinations)` columns. -/
def zipRanks (n : Nat) : List Nat → List (Nat × Nat)
  | [] => []
  | c :: cs => (n + 1, c) :: zipRanks (n + 1) cs

/-- State of a dataset as the migrator sees it: the `db_version` table
(`none` when the table does not exist, otherwise its rows) and the list of
applied migration steps.  Each `migrateToVk` alters the `alphagrams`/`words`
schema and backfills the new columns from existing rows; those writes never
touch `db_version`, so they are abstracted into the marker `k` appended to
`applied`. -/
structure MigDb where
  versionTable : Option (List Int)
  applied : List Int
deriving Repr, DecidableEq

/-- Statement `UPDATE db_version SET version = v`: rewrites every row of the
version table. -/
def setVersion (db : MigDb) (v : Int) : MigDb :=
  { db with versionTable := db.versionTable.map (fun rows => rows.map (fun _ => v)) }

/-- Migration 1 → 2 (dbmaker.go lines 506-572): adds the num_anagrams,
point_value and num_vowels columns with indices, backfills them, then stores
version 2. -/
def migrateToV2 (db : MigDb) : MigDb :=
  setVersion { db with applied := db.applied ++ [2] } 2

/-- Migration 2 → 3 (dbmaker.go lines 574-579): adds the length index, then
stores version 3. -/
def migrateToV3 (db : MigDb) : MigDb :=
  setVersion { db with applied := db.applied ++ [3] } 3

/-- Migration 3 → 4 (dbmaker.go lines 581-661): adds the two provenance-flag
columns with indices, backfills them from the words table, then stores
version 4. -/
def migrateToV4 (db : MigDb) : MigDb :=
  setVersion { db with applied := db.applied ++ [4] } 4

/-- Migration 4 → 5 (dbmaker.go lines 663-678): adds the difficulty column
and index, loads difficulties, then stores version 5. -/
def migrateToV5 (db : MigDb) : MigDb :=
  setVersion { db with applied := db.applied ++ [5] } 5

/-- Migration 5 → 6 (dbmaker.go lines 680-691): creates the deletedwords
table, then stores version 6. -/
def migrateToV6 (db : MigDb) : MigDb :=
  setVersion { db with applied := db.applied ++ [6] } 6

/-- Function `MigrateLexiconDatabase` (dbmaker.go lines 446-504).  Reading the
stored version: a missing `db_version` table is bootstrapped with a single row
holding 1; a present but empty table hits `log.Fatal` (`none` result); else the
first row is scanned.  The chain of `if version == k` tests compares the local
`version` variable, which the migrations never update, so at most the single
transition starting at the stored version runs. -/
def MigrateLexiconDatabase (db0 : MigDb) : Option MigDb :=
  match db0.versionTable with
  | some [] => none
  | scanned =>
    let start : MigDb × Int :=
      match scanned with
      | none => ({ db0 with versionTable := some [1] }, 1)
      | some [] => ({ db0 with versionTable := some [1] }, 1)
      | some (v :: _) => (db0, v)
    let db := start.1
    let version := start.2
    let db := if version == 1 then migrateToV2 db else db
    let db := if version == 2 then migrateToV3 db else db
    let db := if version == 3 then migrateToV4 db else db
    let db := if version == 4 then migrateToV5 db else db
    let db := if version == 5 then migrateToV6 db else db
    some db

/-- The version value the next `SELECT version FROM db_version` scan returns. -/
def storedVersion (db : MigDb) : Option Int :=
  match db.versionTable with
  | none => none
  | some [] => none
  | some (v :: _) => some v

/-- Build context with a missing (unreadable) word-list file: `os.Open` fails,
all adapters are trivial, no prior edition exists. -/
def ctxMissingFile : BuildCtx :=
  { lexiconFile := none
    combinations := fun _ _ => 0
    mkAlphagram := fun w => w
    letterPoints := fun _ => 0
    vowels := []
    lexFamily := FamilyCSW
    latestCSWDawg := fun _ => true
    latestTWLDawg := fun _ => true
    priorLex := none
    curDawg := fun _ => true
    frontHooksOf := fun _ => ""
    backHooksOf := fun _ => ""
    innerFrontOf := fun _ => false
    innerBackOf := fun _ => false
    difficultyOf := fun _ => 0 }

/-- Oracles under which every driver statement succeeds. -/
def noFailOracles : Oracles :=
  { failWord := fun _ => false
    failAlpha := fun _ => false
    failDeleted := fun _ => false
    failVersion := false }

/-- Deleted-word rows the build writes: the deletion-detector output sorted by
`sort.Strings` (dbmaker.go line 287), each word paired with its Go `len`
(byte length). -/
def deletedRowsOf (ctx : BuildCtx) : List (String × Nat) :=
  (List.insertionSort strLe (deletedWordsOf ctx)).map (fun w => (w, w.utf8ByteSize))

/-- Deleted-words trace segment of a successful build: the second
transaction's inserts and commit when deletions exist, nothing otherwise. -/
def delSeg (ctx : BuildCtx) : List DbEvent :=
  if 0 < (deletedWordsOf ctx).length then
    (List.insertionSort strLe (deletedWordsOf ctx)).map
      (fun w => DbEvent.insertDeleted w w.utf8ByteSize) ++ [DbEvent.commitDeleted]
  else []

/-- Non-ranking statistics columns of an `alphagrams` row. -/
def rowStats (r : AlphaRow) : String × Nat × Nat × Nat × Nat × Nat × Nat × Nat × Nat :=
  (r.alphagram, r.length, r.combinations, r.numAnagrams, r.pointValue, r.numVowels,
    r.uniqToLexSplit, r.updateToLex, r.difficulty)

/-- Symbol strings of a class's member words, in member order. -/
def classSyms (ctx : BuildCtx) (defs : List (String × String)) (a : Alphagram) :
    List String :=
  a.words.map (fun w => (mkWordRow ctx defs a.alphagram w).lexiconSymbols)

/-- Non-ranking statistics the build computes for a class. -/
def classStats (ctx : BuildCtx) (defs : List (String × String)) (a : Alphagram) :
    String × Nat × Nat × Nat × Nat × Nat × Nat × Nat × Nat :=
  (a.alphagram, a.alphagram.length, a.combinations, a.words.length,
    a.pointValue ctx.letterPoints, a.numVowels ctx.vowels,
    containsWordUniqueToLexSplit (classSyms ctx defs a),
    containsUpdateToLex (classSyms ctx defs a), ctx.difficultyOf a.alphagram)

/-- Build context for a tiny lexicon whose word list holds the single line
"AB"; the alphagram adapter is the identity and no prior edition exists. -/
def ctxTiny : BuildCtx :=
  { lexiconFile := some ["AB"]
    combinations := fun _ _ => 1
    mkAlphagram := fun w => w
    letterPoints := fun _ => 1
    vowels := ['A']
    lexFamily := FamilyCSW
    latestCSWDawg := fun _ => true
    latestTWLDawg := fun _ => true
    priorLex := none
    curDawg := fun _ => true
    frontHooksOf := fun _ => ""
    backHooksOf := fun _ => ""
    innerFrontOf := fun _ => false
    innerBackOf := fun _ => false
    difficultyOf := fun _ => 0 }

/-- Oracles that fail exactly the `words` insert whose word column is "AB". -/
def failABWordOracles : Oracles :=
  { failWord := fun r => r.word == "AB"
    failAlpha := fun _ => false
    failDeleted := fun _ => false
    failVersion := false }

/-- Oracles that fail every `alphagrams` insert. -/
def failAlphaOracles : Oracles :=
  { failWord := fun _ => false
    failAlpha := fun _ => true
    failDeleted := fun _ => false
    failVersion := false }

/-- Build context whose word list holds one sixteen-letter word. -/
def ctxLong : BuildCtx :=
  { lexiconFile := some ["ABCDEFGHIJKLMNOP"]
    combinations := fun _ _ => 1
    mkAlphagram := fun w => w
    letterPoints := fun _ => 1
    vowels := ['A']
    lexFamily := FamilyCSW
    latestCSWDawg := fun _ => true
    latestTWLDawg := fun _ => true
    priorLex := none
    curDawg := fun _ => true
    frontHooksOf := fun _ => ""
    backHooksOf := fun _ => ""
    innerFrontOf := fun _ => false
    innerBackOf := fun _ => false
    difficultyOf := fun _ => 0 }

/-- Prior edition whose word list holds one word, "QUIZ", with an empty
dictionary. -/
def priorTiny : PriorLex :=
  { dawg := fun _ => false
    file := some ["QUIZ"]
    combinations := fun _ _ => 1
    mkAlphagram := fun w => w }

/-- Build context like `ctxTiny` but with the `priorTiny` prior edition and a
current dictionary that rejects every word. -/
def ctxPrior : BuildCtx :=
  { ctxTiny with priorLex := some priorTiny, curDawg := fun _ => false }

/-- Build context whose word list repeats the word "AB" on two non-empty
lines, the second time with a definition token. -/
def ctxDup : BuildCtx :=
  { ctxTiny with lexiconFile := some ["AB", "AB x"] }

/-- C3: a migrator invocation on a dataset whose stored version is `v` with
`1 ≤ v < 6` applies exactly the single `v → v+1` transition and stores
`v + 1`, advancing no further in that invocation; on a dataset already at
version 6 it applies zero transitions and leaves the stored version (and the
whole state) unchanged. -/
theorem c3_migrate_single_step :
    (∀ (db : MigDb) (v : Int) (rest : List Int),
        db.versionTable = some (v :: rest) → 1 ≤ v → v < 6 →
        ∃ db', MigrateLexiconDatabase db = some db'
          ∧ db'.applied = db.applied ++ [v + 1]
          ∧ storedVersion db' = some (v + 1))
    ∧ (∀ (db : MigDb) (rest : List Int),
        db.versionTable = some (6 :: rest) →
        MigrateLexiconDatabase db = some db) := by
  constructor
  · intro db v rest hTable h1 h6
    interval_cases v
    · exact ⟨migrateToV2 db, by simp [MigrateLexiconDatabase, hTable],
        by simp [migrateToV2, setVersion],
        by simp [migrateToV2, setVersion, storedVersion, hTable, List.replicate_succ]⟩
    · exact ⟨migrateToV3 db, by simp [MigrateLexiconDatabase, hTable],
        by simp [migrateToV3, setVersion],
        by simp [migrateToV3, setVersion, storedVersion, hTable, List.replicate_succ]⟩
    · exact ⟨migrateToV4 db, by simp [MigrateLexiconDatabase, hTable],
        by simp [migrateToV4, setVersion],
        by simp [migrateToV4, setVersion, storedVersion, hTable, List.replicate_succ]⟩
    · exact ⟨migrateToV5 db, by simp [MigrateLexiconDatabase, hTable],
        by simp [migrateToV5, setVersion],
        by simp [migrateToV5, setVersion, storedVersion, hTable, List.replicate_succ]⟩
    · exact ⟨migrateToV6 db, by simp [MigrateLexiconDatabase, hTable],
        by simp [migrateToV6, setVersion],
        by simp [migrateToV6, setVersion, storedVersion, hTable, List.replicate_succ]⟩
  · intro db rest hTable
    simp [MigrateLexiconDatabase, hTable]

/-- Witness for C3 at a concrete dataset: version 3 advances exactly to 4. -/
theorem c3_witness :
    ∃ db', MigrateLexiconDatabase ⟨some [3], []⟩ = some db'
      ∧ db'.applied = ([] : List Int) ++ [3 + 1]
      ∧ storedVersion db' = some (3 + 1) :=
  c3_migrate_single_step.1 ⟨some [3], []⟩ 3 [] rfl (by decide) (by decide)

/-- C4 counterexample: the claim says a stored version value that is neither a
known transition start (1-5) nor the terminal version 6 makes the migrator
terminate fatally.  On a dataset storing version 0 the code terminates
normally (`log.Fatal` is never reached; the result is not the fatal `none`),
leaving the dataset untouched. -/
theorem c4_counterexample :
    MigrateLexiconDatabase ⟨some [0], []⟩ = some ⟨some [0], []⟩ ∧
      MigrateLexiconDatabase ⟨some [0], []⟩ ≠ none := by
  exact ⟨rfl, by decide⟩

/-- C4 amended: reading the stored version, the migrator (a) bootstraps a
dataset with no version table to version 1 and proceeds — not an error — so
the invocation ends with the 1 → 2 transition applied and version 2 stored;
(b) terminates fatally when the version table exists but holds no row; and
(c) on a stored version that is neither a transition start (1-5) nor the
terminal 6, applies no transition and leaves the dataset unchanged,
terminating normally rather than fatally. -/
theorem c4_amended :
    (∀ db : MigDb, db.versionTable = none →
        MigrateLexiconDatabase db =
          some { versionTable := some [2], applied := db.applied ++ [2] })
    ∧ (∀ db : MigDb, db.versionTable = some [] → MigrateLexiconDatabase db = none)
    ∧ (∀ (db : MigDb) (v : Int) (rest : List Int),
        db.versionTable = some (v :: rest) → v < 1 ∨ 6 < v →
        MigrateLexiconDatabase db = some db) := by
  refine ⟨?_, ?_, ?_⟩
  · intro db hTable
    simp [MigrateLexiconDatabase, hTable, migrateToV2, setVersion]
  · intro db hTable
    simp [MigrateLexiconDatabase, hTable]
  · intro db v rest hTable hv
    have e1 : (v == (1 : Int)) = false := by simp; omega
    have e2 : (v == (2 : Int)) = false := by simp; omega
    have e3 : (v == (3 : Int)) = false := by simp; omega
    have e4 : (v == (4 : Int)) = false := by simp; omega
    have e5 : (v == (5 : Int)) = false := by simp; omega
    simp [MigrateLexiconDatabase, hTable, e1, e2, e3, e4, e5]

/-- Witness for C4 at concrete datasets: a missing version table bootstraps and
proceeds to version 2; an empty version table is fatal; version 7 applies no
transition. -/
theorem c4_witness :
    MigrateLexiconDatabase ⟨none, []⟩ = some { versionTable := some [2], applied := [] ++ [2] }
    ∧ MigrateLexiconDatabase ⟨some [], []⟩ = none
    ∧ MigrateLexiconDatabase ⟨some [7], []⟩ = some ⟨some [7], []⟩ :=
  ⟨c4_amended.1 ⟨none, []⟩ rfl, c4_amended.2.1 ⟨some [], []⟩ rfl,
    c4_amended.2.2 ⟨some [7], []⟩ 7 [] rfl (by omega)⟩

/-- Closed form of `findLexSymbols`: the update marker (when a prior edition
exists and lacks the word) followed by the matching family-exclusivity marker
(when the sibling family's latest edition lacks the word). -/
lemma findLexSymbols_closed (word : String) (latestCSW latestTWL : String → Bool)
    (fam : String) (prior : Option (String → Bool)) :
    findLexSymbols word latestCSW latestTWL fam prior =
      (match prior with
       | some d => if d word then "" else LexiconUpdateSymbol
       | none => "") ++
      (if fam == FamilyCSW && !latestTWL word then CSWOnlySymbol else "") ++
      (if fam == FamilyTWL && !latestCSW word then TWLOnlySymbol else "") := by
  rcases prior with _ | d
  all_goals cases hc : fam == FamilyCSW
  all_goals cases hf : fam == FamilyTWL
  all_goals try cases hd : d word
  all_goals try cases ht : latestTWL word
  all_goals try cases hw : latestCSW word
  all_goals try exact absurd ((eq_of_beq hc).symm.trans (eq_of_beq hf)) (by decide)
  all_goals first
    | (simp only [findLexSymbols, hc, hf, hd, ht, hw]; decide)
    | (simp only [findLexSymbols, hc, hf, ht, hw]; decide)

/-- Closed form of `findLexSymbols` for the prior-edition-absent case. -/
lemma findLexSymbols_closed_noprior (word : String) (latestCSW latestTWL : String → Bool)
    (fam : String) :
    findLexSymbols word latestCSW latestTWL fam none =
      (if fam == FamilyCSW && !latestTWL word then CSWOnlySymbol else "") ++
      (if fam == FamilyTWL && !latestCSW word then TWLOnlySymbol else "") := by
  cases hc : fam == FamilyCSW
  all_goals cases hf : fam == FamilyTWL
  all_goals cases ht : latestTWL word
  all_goals cases hw : latestCSW word
  all_goals try exact absurd ((eq_of_beq hc).symm.trans (eq_of_beq hf)) (by decide)
  all_goals simp only [findLexSymbols, hc, hf, ht, hw]
  all_goals decide

/-- The alphagram-level split flag is 1 exactly when some member word's symbol
string contains a `$` or a `#`. -/
lemma containsUniq_iff (syms : List String) :
    containsWordUniqueToLexSplit syms = 1 ↔
      ∃ s ∈ syms, strContains s "$" = true ∨ strContains s "#" = true := by
  induction syms with
  | nil => simp [containsWordUniqueToLexSplit]
  | cons s rest ih =>
    cases h : (strContains s "$" || strContains s "#") with
    | true =>
      have hx : ∃ s' ∈ s :: rest, strContains s' "$" = true ∨ strContains s' "#" = true :=
        ⟨s, List.mem_cons_self s rest, by simpa using h⟩
      simp [containsWordUniqueToLexSplit, h, hx]
      exact Or.inl (by simpa using h)
    | false =>
      have h1 : strContains s "$" = false := by
        cases hx : strContains s "$" <;> simp_all
      have h2 : strContains s "#" = false := by
        cases hx : strContains s "#" <;> simp_all
      simp only [containsWordUniqueToLexSplit, h, if_false, Bool.false_eq_true]
      rw [ih]
      constructor
      · rintro ⟨x, hx, hpx⟩
        exact ⟨x, List.mem_cons_of_mem s hx, hpx⟩
      · rintro ⟨x, hx, hpx⟩
        rcases List.mem_cons.mp hx with rfl | hx
        · rcases hpx with hp | hp
          · rw [h1] at hp; exact absurd hp (by simp)
          · rw [h2] at hp; exact absurd hp (by simp)
        · exact ⟨x, hx, hpx⟩

/-- The alphagram-level update flag is 1 exactly when some member word's symbol
string contains a `+`. -/
lemma containsUpdate_iff (syms : List String) :
    containsUpdateToLex syms = 1 ↔ ∃ s ∈ syms, strContains s "+" = true := by
  induction syms with
  | nil => simp [containsUpdateToLex]
  | cons s rest ih =>
    cases h : strContains s "+" with
    | true =>
      have hx : ∃ s' ∈ s :: rest, strContains s' "+" = true :=
        ⟨s, List.mem_cons_self s rest, h⟩
      simp [containsUpdateToLex, h, hx]
    | false =>
      simp only [containsUpdateToLex, h, if_false, Bool.false_eq_true]
      rw [ih]
      constructor
      · rintro ⟨x, hx, hpx⟩
        exact ⟨x, List.mem_cons_of_mem s hx, hpx⟩
      · rintro ⟨x, hx, hpx⟩
        rcases List.mem_cons.mp hx with rfl | hx
        · rw [h] at hpx; exact absurd hpx (by simp)
        · exact ⟨x, hx, hpx⟩

/-- C5: a word's provenance symbol string tests, in order, absence from the
prior edition (update marker), then absence from the sibling family's latest
edition (family-exclusive marker, CSW against latest TWL and TWL against
latest CSW), each marker appearing at most once; the alphagram-level
`contains_word_uniq_to_lex_split` flag is 1 exactly when some member word's
symbol string contains `$` or `#`, and `contains_update_to_lex` is 1 exactly
when some member word's symbol string contains `+`. -/
theorem c5_provenance :
    (∀ (word : String) (latestCSW latestTWL : String → Bool) (fam : String)
        (prior : Option (String → Bool)),
        findLexSymbols word latestCSW latestTWL fam prior =
          (match prior with
           | some d => if d word then "" else LexiconUpdateSymbol
           | none => "") ++
          (if fam == FamilyCSW && !latestTWL word then CSWOnlySymbol else "") ++
          (if fam == FamilyTWL && !latestCSW word then TWLOnlySymbol else ""))
    ∧ (∀ (word : String) (latestCSW latestTWL : String → Bool) (fam : String)
        (prior : Option (String → Bool)),
        (findLexSymbols word latestCSW latestTWL fam prior).data.count '+' ≤ 1 ∧
        (findLexSymbols word latestCSW latestTWL fam prior).data.count '#' ≤ 1 ∧
        (findLexSymbols word latestCSW latestTWL fam prior).data.count '$' ≤ 1)
    ∧ (∀ syms : List String,
        containsWordUniqueToLexSplit syms = 1 ↔
          ∃ s ∈ syms, strContains s "$" = true ∨ strContains s "#" = true)
    ∧ (∀ syms : List String,
        containsUpdateToLex syms = 1 ↔ ∃ s ∈ syms, strContains s "+" = true) := by
  refine ⟨findLexSymbols_closed, ?_, containsUniq_iff, containsUpdate_iff⟩
  intro word latestCSW latestTWL fam prior
  rw [findLexSymbols_closed]
  rcases prior with _ | d
  all_goals cases hc : fam == FamilyCSW
  all_goals cases hf : fam == FamilyTWL
  all_goals try cases hd : d word
  all_goals try cases ht : latestTWL word
  all_goals try cases hw : latestCSW word
  all_goals try exact absurd ((eq_of_beq hc).symm.trans (eq_of_beq hf)) (by decide)
  all_goals first
    | (simp only [hc, hf, hd, ht, hw]; decide)
    | (simp only [hc, hf, ht, hw]; decide)

/-- C9 evidence: a build invoked on a missing or unreadable word-list file
(whose `os.Open` error the code discards) does not abort: it runs to
completion without a fatal condition, commits the main transaction with zero
alphagram and word rows, and stamps the dataset with the current version. -/
theorem c9_missing_input_commits_empty :
    (runBuild ctxMissingFile noFailOracles).fatal = false ∧
    (runBuild ctxMissingFile noFailOracles).trace =
      [DbEvent.commitMain, DbEvent.insertVersion CurrentVersion] ∧
    replay (runBuild ctxMissingFile noFailOracles).trace =
      { alphagrams := [], words := [], deletedwords := [], dbVersion := [CurrentVersion] } :=
  ⟨rfl, rfl, rfl⟩

/-- Characters with equal code points are equal. -/
lemma charEq_of_toNat (a b : Char) (h : a.toNat = b.toNat) : a = b := by
  apply Char.ext
  unfold Char.toNat at h
  exact UInt32.toNat.inj h

/-- The bytewise string order is asymmetric. -/
lemma listLtB_asymm (l1 : List Char) :
    ∀ l2, listLtB l1 l2 = true → listLtB l2 l1 = false := by
  induction l1 with
  | nil =>
    intro l2 h
    cases l2 <;> simp_all [listLtB]
  | cons a as ih =>
    intro l2 h
    cases l2 with
    | nil => simp [listLtB] at h
    | cons b bs =>
      simp only [listLtB] at h ⊢
      rcases Nat.lt_trichotomy a.toNat b.toNat with hab | hab | hab
      · simp [hab, Nat.lt_asymm hab]
      · simp only [hab, lt_self_iff_false, if_false] at h ⊢
        exact ih bs h
      · simp [hab, Nat.lt_asymm hab] at h

/-- Lists that are not bytewise smaller than each other are equal. -/
lemma listLtB_conn (l1 : List Char) :
    ∀ l2, listLtB l1 l2 = false → listLtB l2 l1 = false → l1 = l2 := by
  induction l1 with
  | nil =>
    intro l2 h1 _
    cases l2 with
    | nil => rfl
    | cons b bs => simp [listLtB] at h1
  | cons a as ih =>
    intro l2 h1 h2
    cases l2 with
    | nil => simp [listLtB] at h2
    | cons b bs =>
      simp only [listLtB] at h1 h2
      rcases Nat.lt_trichotomy a.toNat b.toNat with hab | hab | hab
      · simp [hab] at h1
      · have hab' : a = b := charEq_of_toNat a b hab
        subst hab'
        simp only [lt_self_iff_false, if_false] at h1 h2
        rw [ih bs h1 h2]
      · simp [hab] at h2

/-- The bytewise string order is transitive. -/
lemma listLtB_trans (l1 : List Char) :
    ∀ l2 l3, listLtB l1 l2 = true → listLtB l2 l3 = true → listLtB l1 l3 = true := by
  induction l1 with
  | nil =>
    intro l2 l3 h1 h2
    cases l3 with
    | nil =>
      cases l2 with
      | nil => simp [listLtB] at h1
      | cons b bs => simp [listLtB] at h2
    | cons c cs => simp [listLtB]
  | cons a as ih =>
    intro l2 l3 h1 h2
    cases l2 with
    | nil => simp [listLtB] at h1
    | cons b bs =>
      cases l3 with
      | nil => simp [listLtB] at h2
      | cons c cs =>
        simp only [listLtB] at h1 h2 ⊢
        rcases Nat.lt_trichotomy a.toNat b.toNat with hab | hab | hab <;>
          rcases Nat.lt_trichotomy b.toNat c.toNat with hbc | hbc | hbc
        · simp [Nat.lt_trans hab hbc]
        · simp [← hbc, hab]
        · simp [Nat.lt_asymm hbc, hbc] at h2
        · simp [hab, hbc]
        · simp only [hab, hbc, lt_self_iff_false, if_false] at h1 h2 ⊢
          exact ih bs cs h1 h2
        · simp [Nat.lt_asymm hbc, hbc] at h2
        · simp [Nat.lt_asymm hab, hab] at h1
        · simp [Nat.lt_asymm hab, hab] at h1
        · simp [Nat.lt_asymm hab, hab] at h1

/-- Transitivity of the reflexive closure of the bytewise order. -/
lemma listLtB_le_trans {a b c : List Char} (hab : listLtB b a = false)
    (hbc : listLtB c b = false) : listLtB c a = false := by
  cases hca : listLtB c a with
  | false => rfl
  | true =>
    cases hbc2 : listLtB b c with
    | false =>
      have hbceq : b = c := listLtB_conn b c hbc2 hbc
      subst hbceq
      rw [hca] at hab
      cases hab
    | true =>
      have := listLtB_trans b c a hbc2 hca
      rw [this] at hab
      cases hab

instance : IsTotal String strLe :=
  ⟨fun a b => by
    unfold strLe
    cases h : listLtB b.data a.data with
    | false => exact Or.inl rfl
    | true => exact Or.inr (listLtB_asymm b.data a.data h)⟩

instance : IsTrans String strLe :=
  ⟨fun _ _ _ hab hbc => listLtB_le_trans hab hbc⟩

/-- Truth condition of the `AlphByCombos.Less` comparator. -/
lemma less_iff (a b : Alphagram) :
    AlphByCombos.Less a b = true ↔
      b.combinations < a.combinations ∨
        (a.combinations = b.combinations ∧
          listLtB a.alphagram.data b.alphagram.data = true) := by
  unfold AlphByCombos.Less
  by_cases h : a.combinations = b.combinations
  · simp [h]
  · have hb : (a.combinations == b.combinations) = false := by
      simpa using h
    simp [hb, h, decide_eq_true_iff]

/-- The sort comparator is asymmetric. -/
lemma less_asymm (a b : Alphagram) (h : AlphByCombos.Less a b = true) :
    AlphByCombos.Less b a = false := by
  cases hba : AlphByCombos.Less b a with
  | false => rfl
  | true =>
    rcases (less_iff a b).mp h with h1 | ⟨h1, h2⟩ <;>
      rcases (less_iff b a).mp hba with h3 | ⟨h3, h4⟩
    · omega
    · omega
    · omega
    · rw [listLtB_asymm _ _ h2] at h4
      cases h4

/-- Unfolding of `alphLe` into combination and tie-break conditions. -/
lemma alphLe_iff (a b : Alphagram) :
    alphLe a b ↔ b.combinations ≤ a.combinations ∧
      (b.combinations = a.combinations →
        listLtB b.alphagram.data a.alphagram.data = false) := by
  unfold alphLe
  constructor
  · intro h
    refine ⟨?_, ?_⟩
    · by_contra hlt
      have : AlphByCombos.Less b a = true := (less_iff b a).mpr (Or.inl (by omega))
      rw [this] at h
      cases h
    · intro heq
      cases hx : listLtB b.alphagram.data a.alphagram.data with
      | false => rfl
      | true =>
        have : AlphByCombos.Less b a = true := (less_iff b a).mpr (Or.inr ⟨heq, hx⟩)
        rw [this] at h
        cases h
  · rintro ⟨h1, h2⟩
    cases hx : AlphByCombos.Less b a with
    | false => rfl
    | true =>
      rcases (less_iff b a).mp hx with h3 | ⟨h3, h4⟩
      · omega
      · rw [h2 h3] at h4
        cases h4

instance : IsTotal Alphagram alphLe :=
  ⟨fun a b => by
    unfold alphLe
    cases h : AlphByCombos.Less b a with
    | false => exact Or.inl rfl
    | true => exact Or.inr (less_asymm b a h)⟩

instance : IsTrans Alphagram alphLe :=
  ⟨fun a b c hab hbc => by
    rcases (alphLe_iff a b).mp hab with ⟨h1, h2⟩
    rcases (alphLe_iff b c).mp hbc with ⟨h3, h4⟩
    refine (alphLe_iff a c).mpr ⟨by omega, fun heq => ?_⟩
    have hba : b.combinations = a.combinations := by omega
    have hcb : c.combinations = b.combinations := by omega
    exact listLtB_le_trans (h2 hba) (h4 hcb)⟩

/-- Every event the word loop emits is a word insert. -/
lemma wordLoop_events (ctx : BuildCtx) (orl : Oracles) (defs : List (String × String))
    (alphagram : String) :
    ∀ ws, ∀ e ∈ (wordLoop ctx orl defs alphagram ws).1, ∃ r, e = DbEvent.insertWord r := by
  intro ws
  induction ws with
  | nil => intro e he; simp [wordLoop] at he
  | cons w ws ih =>
    intro e he
    simp only [wordLoop] at he
    rcases hf : orl.failWord (mkWordRow ctx defs alphagram w) with _ | _
    · rw [if_neg (by simp [hf])] at he
      rcases List.mem_cons.mp he with rfl | h
      · exact ⟨_, rfl⟩
      · exact ih e h
    · rw [if_pos (by simp [hf])] at he
      exact ih e he

/-- The symbol strings the word loop collects, independent of insert
failures. -/
lemma wordLoop_syms (ctx : BuildCtx) (orl : Oracles) (defs : List (String × String))
    (alphagram : String) :
    ∀ ws, (wordLoop ctx orl defs alphagram ws).2 =
      ws.map (fun w => (mkWordRow ctx defs alphagram w).lexiconSymbols) := by
  intro ws
  induction ws with
  | nil => rfl
  | cons w ws ih => simp only [wordLoop, List.map_cons, ih]

/-- With no word-insert failures the word loop inserts one row per member
word, in order. -/
lemma wordLoop_rows_nofail (ctx : BuildCtx) (orl : Oracles) (defs : List (String × String))
    (alphagram : String) (hw : ∀ r, orl.failWord r = false) :
    ∀ ws, (wordLoop ctx orl defs alphagram ws).1 =
      ws.map (fun w => DbEvent.insertWord (mkWordRow ctx defs alphagram w)) := by
  intro ws
  induction ws with
  | nil => rfl
  | cons w ws ih => simp only [wordLoop, hw, List.map_cons, ih, if_false, Bool.false_eq_true]

/-- Alphagram rows of a concatenated trace. -/
lemma alphaRowsOf_append (l1 l2 : List DbEvent) :
    alphaRowsOf (l1 ++ l2) = alphaRowsOf l1 ++ alphaRowsOf l2 :=
  List.filterMap_append ..

/-- Word rows of a concatenated trace. -/
lemma wordRowsOf_append (l1 l2 : List DbEvent) :
    wordRowsOf (l1 ++ l2) = wordRowsOf l1 ++ wordRowsOf l2 :=
  List.filterMap_append ..

/-- The word loop contributes no alphagram rows. -/
lemma alphaRowsOf_wordLoop (ctx : BuildCtx) (orl : Oracles) (defs : List (String × String))
    (alphagram : String) (ws : List String) :
    alphaRowsOf (wordLoop ctx orl defs alphagram ws).1 = [] := by
  unfold alphaRowsOf
  rw [List.filterMap_eq_nil_iff]
  intro e he
  obtain ⟨r, rfl⟩ := wordLoop_events ctx orl defs alphagram ws e he
  rfl

/-- Every event the main loop emits is an alphagram or word insert. -/
lemma mainLoop_events (ctx : BuildCtx) (orl : Oracles) (defs : List (String × String)) :
    ∀ (s : List Alphagram) (probs : Nat → Nat),
      ∀ e ∈ (mainLoop ctx orl defs probs s).1,
        (∃ r, e = DbEvent.insertAlpha r) ∨ (∃ r, e = DbEvent.insertWord r) := by
  intro s
  induction s with
  | nil => intro probs e he; simp [mainLoop] at he
  | cons a rest ih =>
    intro probs e he
    simp only [mainLoop] at he
    by_cases h15 : 15 < a.alphagram.length
    · rw [if_pos h15] at he
      exact Or.inr (wordLoop_events ctx orl defs a.alphagram a.words e he)
    · rw [if_pos (by omega : a.alphagram.length ≤ 15), if_neg h15] at he
      split at he
      · exact Or.inr (wordLoop_events ctx orl defs a.alphagram a.words e he)
      · rcases List.mem_append.mp he with h | h
        · exact Or.inr (wordLoop_events ctx orl defs a.alphagram a.words e h)
        · rcases List.mem_cons.mp h with rfl | h
          · exact Or.inl ⟨_, rfl⟩
          · exact ih _ e h

/-- Whether the main loop dies does not depend on the word-insert oracle. -/
lemma mainLoop_fatal_indep (ctx : BuildCtx) (orl orl' : Oracles)
    (defs : List (String × String)) (ha : orl.failAlpha = orl'.failAlpha) :
    ∀ (s : List Alphagram) (probs : Nat → Nat),
      (mainLoop ctx orl defs probs s).2 = (mainLoop ctx orl' defs probs s).2 := by
  intro s
  induction s with
  | nil => intro probs; rfl
  | cons a rest ih =>
    intro probs
    simp [mainLoop, wordLoop_syms, ha, apply_ite Prod.snd, ih]

/-- A class longer than 15 letters makes the main loop die (reading
`probs[wl]` is out of range). -/
lemma mainLoop_offender (ctx : BuildCtx) (orl : Oracles) (defs : List (String × String)) :
    ∀ (s : List Alphagram) (probs : Nat → Nat),
      (∃ a ∈ s, 15 < a.alphagram.length) →
      (mainLoop ctx orl defs probs s).2 = true := by
  intro s
  induction s with
  | nil => rintro probs ⟨a, ha, _⟩; cases ha
  | cons a rest ih =>
    rintro probs ⟨x, hx, hxlen⟩
    simp only [mainLoop]
    rcases List.mem_cons.mp hx with rfl | hx
    · rw [if_pos hxlen]
    · by_cases h15 : 15 < a.alphagram.length
      · rw [if_pos h15]
      · rw [if_pos (by omega : a.alphagram.length ≤ 15), if_neg h15]
        split
        · rfl
        · exact ih _ ⟨x, hx, hxlen⟩

/-- With no failures the deleted-words loop inserts one row per word. -/
lemma deletedLoop_nofail (orl : Oracles) (hd : ∀ p, orl.failDeleted p = false) :
    ∀ ws, deletedLoop orl ws =
      (ws.map (fun w => DbEvent.insertDeleted w w.utf8ByteSize), false) := by
  intro ws
  induction ws with
  | nil => rfl
  | cons w ws ih => simp only [deletedLoop, hd, List.map_cons, ih, if_false, Bool.false_eq_true]

/-- Cohort count of a cons. -/
lemma countLen_cons (a : Alphagram) (s : List Alphagram) (L : Nat) :
    countLen (a :: s) L =
      if a.alphagram.length = L then countLen s L + 1 else countLen s L := by
  by_cases h : a.alphagram.length = L <;> simp [countLen, List.filter_cons, h]

/-- Cohorts are no larger than the class list. -/
lemma countLen_le_length (s : List Alphagram) (L : Nat) : countLen s L ≤ s.length :=
  List.length_filter_le _ _

/-- First components of `zipRanks` are consecutive ranks. -/
lemma zipRanks_fst : ∀ (cs : List Nat) (n : Nat),
    (zipRanks n cs).map Prod.fst = List.range' (n + 1) cs.length := by
  intro cs
  induction cs with
  | nil => intro n; simp [zipRanks]
  | cons c cs ih =>
    intro n
    simp only [zipRanks, List.map_cons, ih, List.length_cons, List.range'_succ]

/-- Second components of `zipRanks` are the zipped list. -/
lemma zipRanks_snd : ∀ (cs : List Nat) (n : Nat), (zipRanks n cs).map Prod.snd = cs := by
  intro cs
  induction cs with
  | nil => intro n; rfl
  | cons c cs ih => intro n; simp only [zipRanks, List.map_cons, ih]

/-- Ranks in `zipRanks n cs` exceed `n`. -/
lemma zipRanks_fst_gt : ∀ (cs : List Nat) (n : Nat), ∀ p ∈ zipRanks n cs, n < p.1 := by
  intro cs
  induction cs with
  | nil => intro n p hp; cases hp
  | cons c cs ih =>
    intro n p hp
    rcases List.mem_cons.mp hp with rfl | hp
    · exact Nat.lt_succ_self n
    · exact Nat.lt_of_succ_lt (ih (n + 1) p hp)

/-- Values in `zipRanks n cs` come from `cs`. -/
lemma zipRanks_snd_mem : ∀ (cs : List Nat) (n : Nat), ∀ p ∈ zipRanks n cs, p.2 ∈ cs := by
  intro cs
  induction cs with
  | nil => intro n p hp; cases hp
  | cons c cs ih =>
    intro n p hp
    rcases List.mem_cons.mp hp with rfl | hp
    · exact List.mem_cons_self c cs
    · exact List.mem_cons_of_mem c (ih (n + 1) p hp)

/-- The pair carrying rank 1 is the head pair. -/
lemma zipRanks_rank_one (cs : List Nat) (p : Nat × Nat) (hp : p ∈ zipRanks 0 cs)
    (h1 : p.1 = 1) : ∃ cs', cs = p.2 :: cs' := by
  cases cs with
  | nil => cases hp
  | cons c cs' =>
    rcases List.mem_cons.mp hp with rfl | hmem
    · exact ⟨cs', rfl⟩
    · have := zipRanks_fst_gt cs' 1 p hmem
      omega

/-- Alphagram rows of a trace starting with an alphagram insert. -/
lemma alphaRowsOf_cons_alpha (r : AlphaRow) (tr : List DbEvent) :
    alphaRowsOf (DbEvent.insertAlpha r :: tr) = r :: alphaRowsOf tr := rfl

/-- Main-loop correctness on classes of length at most 15 with no
alphagram-insert failures: the loop completes, writes one alphagram row per
class carrying exactly the computed non-ranking statistics, and each length
cohort's `(probability, combinations)` columns are the post-increment counter
values paired with the cohort's combination counts in visit order. -/
lemma mainLoop_ok (ctx : BuildCtx) (orl : Oracles) (defs : List (String × String))
    (ha : ∀ r, orl.failAlpha r = false) :
    ∀ (s : List Alphagram) (probs : Nat → Nat),
      (∀ a ∈ s, a.alphagram.length ≤ 15) →
      (∀ i, probs i + countLen s i < 4294967296) →
      (mainLoop ctx orl defs probs s).2 = false ∧
      (alphaRowsOf (mainLoop ctx orl defs probs s).1).map rowStats =
        s.map (classStats ctx defs) ∧
      ∀ L, ((alphaRowsOf (mainLoop ctx orl defs probs s).1).filter
              (fun r => r.length == L)).map (fun r => (r.probability, r.combinations)) =
          zipRanks (probs L)
            ((s.filter (fun a => a.alphagram.length == L)).map
              (fun a => a.combinations)) := by
  intro s
  induction s with
  | nil =>
    intro probs _ _
    exact ⟨rfl, rfl, fun L => by simp [mainLoop, alphaRowsOf, zipRanks]⟩
  | cons a rest ih =>
    intro probs hlen hbound
    have h15 : a.alphagram.length ≤ 15 := hlen a (List.mem_cons_self a rest)
    have hnot : ¬ 15 < a.alphagram.length := by omega
    have hmod : (probs a.alphagram.length + 1) % 4294967296 =
        probs a.alphagram.length + 1 := by
      have hb := hbound a.alphagram.length
      rw [countLen_cons, if_pos rfl] at hb
      exact Nat.mod_eq_of_lt (by omega)
    have hbump : ∀ i, bump probs a.alphagram.length i + countLen rest i < 4294967296 := by
      intro i
      have hb := hbound i
      rw [countLen_cons] at hb
      by_cases hi : i = a.alphagram.length
      · subst hi
        rw [if_pos rfl] at hb
        have hbv : bump probs a.alphagram.length a.alphagram.length =
            probs a.alphagram.length + 1 := by
          simp only [bump]
          simp [hmod]
        rw [hbv]
        omega
      · rw [if_neg (fun h : a.alphagram.length = i => hi h.symm)] at hb
        have hbv : bump probs a.alphagram.length i = probs i := by
          simp only [bump]
          rw [if_neg hi]
        rw [hbv]
        omega
    have hrest := ih (bump probs a.alphagram.length)
      (fun x hx => hlen x (List.mem_cons_of_mem a hx)) hbump
    have hstep : mainLoop ctx orl defs probs (a :: rest) =
        ((wordLoop ctx orl defs a.alphagram a.words).1 ++
          (DbEvent.insertAlpha (mkAlphaRow ctx
              ((probs a.alphagram.length + 1) % 4294967296) a.alphagram.length a
              (wordLoop ctx orl defs a.alphagram a.words).2) ::
            (mainLoop ctx orl defs (bump probs a.alphagram.length) rest).1),
         (mainLoop ctx orl defs (bump probs a.alphagram.length) rest).2) := by
      simp only [mainLoop]
      rw [if_pos h15, if_neg hnot]
      have hfa : ¬ (orl.failAlpha (mkAlphaRow ctx
          (bump probs a.alphagram.length a.alphagram.length) a.alphagram.length a
          (wordLoop ctx orl defs a.alphagram a.words).2) = true) := by
        simp [ha]
      rw [if_neg hfa]
      have hbv : bump probs a.alphagram.length a.alphagram.length =
          (probs a.alphagram.length + 1) % 4294967296 := by
        simp [bump]
      rw [hbv]
    have hrow : rowStats (mkAlphaRow ctx ((probs a.alphagram.length + 1) % 4294967296)
        a.alphagram.length a (wordLoop ctx orl defs a.alphagram a.words).2) =
        classStats ctx defs a := by
      simp [rowStats, classStats, mkAlphaRow, wordLoop_syms, classSyms]
    refine ⟨?_, ?_, ?_⟩
    · rw [hstep]
      exact hrest.1
    · rw [hstep]
      simp only [alphaRowsOf_append, alphaRowsOf_wordLoop, alphaRowsOf_cons_alpha,
        List.nil_append, List.map_cons, hrest.2.1, hrow]
    · intro L
      rw [hstep]
      simp only [alphaRowsOf_append, alphaRowsOf_wordLoop, alphaRowsOf_cons_alpha,
        List.nil_append]
      by_cases hL : a.alphagram.length = L
      · subst hL
        have hbL : bump probs a.alphagram.length a.alphagram.length =
            probs a.alphagram.length + 1 := by
          simp [bump, hmod]
        simp only [List.filter_cons, mkAlphaRow, beq_self_eq_true, if_true,
          List.map_cons, zipRanks]
        rw [hrest.2.2 a.alphagram.length, hbL, hmod]
      · have hL2 : (a.alphagram.length == L) = false := by simpa using hL
        have hbL : bump probs a.alphagram.length L = probs L := by
          simp only [bump]
          rw [if_neg (fun h : L = a.alphagram.length => hL h.symm)]
        simp only [List.filter_cons, mkAlphaRow, hL2, Bool.false_eq_true, if_false]
        rw [hrest.2.2 L, hbL]

/-- A deleted-words loop that did not die inserted one row per word. -/
lemma deletedLoop_ok (orl : Oracles) :
    ∀ ws, (deletedLoop orl ws).2 = false →
      (deletedLoop orl ws).1 = ws.map (fun w => DbEvent.insertDeleted w w.utf8ByteSize) := by
  intro ws
  induction ws with
  | nil => intro _; rfl
  | cons w ws ih =>
    intro h
    simp only [deletedLoop] at h ⊢
    by_cases hf : orl.failDeleted (w, w.utf8ByteSize) = true
    · rw [if_pos hf] at h
      simp at h
    · rw [if_neg hf] at h ⊢
      simp only [List.map_cons]
      rw [ih h]

/-- Shape of a successful build's trace: the main-transaction inserts, the
main commit, the deleted-words segment, and the version stamp, in order. -/
lemma runBuild_shape (ctx : BuildCtx) (orl : Oracles)
    (h : (runBuild ctx orl).fatal = false) :
    (mainLoop ctx orl (defsOf ctx) (fun _ => 0) (sortedAlphsOf ctx)).2 = false ∧
    (runBuild ctx orl).trace =
      (mainLoop ctx orl (defsOf ctx) (fun _ => 0) (sortedAlphsOf ctx)).1 ++
        [DbEvent.commitMain] ++ delSeg ctx ++ [DbEvent.insertVersion CurrentVersion] := by
  simp only [runBuild] at h ⊢
  by_cases hm : (mainLoop ctx orl (defsOf ctx) (fun _ => 0) (sortedAlphsOf ctx)).2 = true
  · simp [hm] at h
  · refine ⟨by simpa using hm, ?_⟩
    by_cases hdw : 0 < (deletedWordsOf ctx).length
    · by_cases hd2 : (deletedLoop orl (List.insertionSort strLe (deletedWordsOf ctx))).2 = true
      · simp [hm, hdw, hd2] at h
      · by_cases hv : orl.failVersion = true
        · simp [hm, hdw, hd2, hv] at h
        · simp [hm, hdw, hd2, hv, delSeg,
            deletedLoop_ok orl (List.insertionSort strLe (deletedWordsOf ctx))
              (by simpa using hd2)]
    · by_cases hv : orl.failVersion = true
      · simp [hm, hdw, hv] at h
      · simp [hm, hdw, hv, delSeg]

/-- Replaying a segment of main-transaction inserts only accumulates pending
rows; nothing is committed. -/
lemma replay_main_inserts :
    ∀ (evs : List DbEvent) (st : ReplaySt),
      (∀ e ∈ evs, (∃ r, e = DbEvent.insertAlpha r) ∨ (∃ r, e = DbEvent.insertWord r)) →
      evs.foldl replayStep st =
        { st with pendingA := st.pendingA ++ alphaRowsOf evs
                  pendingW := st.pendingW ++ wordRowsOf evs } := by
  intro evs
  induction evs with
  | nil => intro st _; simp [alphaRowsOf, wordRowsOf]
  | cons e evs ih =>
    intro st hev
    rcases hev e (List.mem_cons_self e evs) with ⟨r, rfl⟩ | ⟨r, rfl⟩ <;>
      rw [List.foldl_cons, ih _ (fun x hx => hev x (List.mem_cons_of_mem _ hx))] <;>
      simp [replayStep, alphaRowsOf, wordRowsOf, List.filterMap_cons]

/-- Replaying deleted-word inserts accumulates them as pending rows. -/
lemma replay_deleted_inserts :
    ∀ (ws : List String) (st : ReplaySt),
      (ws.map (fun w => DbEvent.insertDeleted w w.utf8ByteSize)).foldl replayStep st =
        { st with pendingD := st.pendingD ++ ws.map (fun w => (w, w.utf8ByteSize)) } := by
  intro ws
  induction ws with
  | nil => intro st; simp
  | cons w ws ih =>
    intro st
    rw [List.map_cons, List.foldl_cons, ih]
    simp [replayStep]

/-- Committed database contents of a successful build. -/
lemma replay_build (ctx : BuildCtx) (orl : Oracles) (h : (runBuild ctx orl).fatal = false) :
    replay (runBuild ctx orl).trace =
      { alphagrams :=
          alphaRowsOf (mainLoop ctx orl (defsOf ctx) (fun _ => 0) (sortedAlphsOf ctx)).1
        words :=
          wordRowsOf (mainLoop ctx orl (defsOf ctx) (fun _ => 0) (sortedAlphsOf ctx)).1
        deletedwords := deletedRowsOf ctx
        dbVersion := [CurrentVersion] } := by
  obtain ⟨hm, htr⟩ := runBuild_shape ctx orl h
  rw [htr]
  unfold replay
  rw [List.foldl_append, List.foldl_append, List.foldl_append,
    replay_main_inserts _ _
      (fun e he => mainLoop_events ctx orl (defsOf ctx) (sortedAlphsOf ctx) (fun _ => 0) e he)]
  simp only [List.foldl_cons, List.foldl_nil]
  by_cases hdw : 0 < (deletedWordsOf ctx).length
  · simp only [delSeg, if_pos hdw]
    rw [List.foldl_append, replay_deleted_inserts]
    simp [replayStep, deletedRowsOf]
  · have hnil : deletedWordsOf ctx = [] := by
      cases hx : deletedWordsOf ctx with
      | nil => rfl
      | cons y ys => rw [hx] at hdw; simp at hdw
    simp only [delSeg, if_neg hdw]
    simp [replayStep, deletedRowsOf, hnil, List.insertionSort]

/-- A build that dies while the deleted-words and version statements cannot
fail has died inside the main loop: its trace holds only main-transaction
inserts, the main transaction is never committed, and nothing at all is
committed. -/
lemma runBuild_fatal_main (ctx : BuildCtx) (orl : Oracles)
    (hd : ∀ p, orl.failDeleted p = false) (hv : orl.failVersion = false)
    (h : (runBuild ctx orl).fatal = true) :
    (runBuild ctx orl).trace =
      (mainLoop ctx orl (defsOf ctx) (fun _ => 0) (sortedAlphsOf ctx)).1 ∧
    (mainLoop ctx orl (defsOf ctx) (fun _ => 0) (sortedAlphsOf ctx)).2 = true ∧
    replay (runBuild ctx orl).trace =
      { alphagrams := [], words := [], deletedwords := [], dbVersion := [] } ∧
    DbEvent.commitMain ∉ (runBuild ctx orl).trace := by
  have h' := h
  simp only [runBuild] at h'
  have hm : (mainLoop ctx orl (defsOf ctx) (fun _ => 0) (sortedAlphsOf ctx)).2 = true := by
    by_cases hm : (mainLoop ctx orl (defsOf ctx) (fun _ => 0) (sortedAlphsOf ctx)).2 = true
    · exact hm
    · exfalso
      by_cases hdw : 0 < (deletedWordsOf ctx).length
      · rw [deletedLoop_nofail orl hd] at h'
        simp [hm, hdw, hv] at h'
      · simp [hm, hdw, hv] at h'
  have htr : (runBuild ctx orl).trace =
      (mainLoop ctx orl (defsOf ctx) (fun _ => 0) (sortedAlphsOf ctx)).1 := by
    simp only [runBuild]
    simp [hm]
  refine ⟨htr, hm, ?_, ?_⟩
  · rw [htr]
    unfold replay
    rw [replay_main_inserts _ _
      (fun e he => mainLoop_events ctx orl (defsOf ctx) (sortedAlphsOf ctx) (fun _ => 0) e he)]
  · rw [htr]
    intro hmem
    rcases mainLoop_events ctx orl (defsOf ctx) (sortedAlphsOf ctx) (fun _ => 0)
      DbEvent.commitMain hmem with ⟨r, hr⟩ | ⟨r, hr⟩ <;> cases hr

/-- Deleted-word loops driven by oracles with the same deleted-insert verdicts
coincide. -/
lemma deletedLoop_congr (orl orl' : Oracles) (h : orl.failDeleted = orl'.failDeleted) :
    ∀ ws, deletedLoop orl ws = deletedLoop orl' ws := by
  intro ws
  induction ws with
  | nil => rfl
  | cons w ws ih => simp only [deletedLoop, h, ih]

/-- Replaying a trace with no version insert leaves the version table as it
was. -/
lemma foldl_dbVersion :
    ∀ (tr : List DbEvent) (st : ReplaySt), (∀ v, DbEvent.insertVersion v ∉ tr) →
      (tr.foldl replayStep st).db.dbVersion = st.db.dbVersion := by
  intro tr
  induction tr with
  | nil => intro st _; rfl
  | cons e tr ih =>
    intro st hv
    rw [List.foldl_cons]
    rw [ih _ (fun v hmem => hv v (List.mem_cons_of_mem e hmem))]
    cases e with
    | insertVersion v => exact absurd (List.mem_cons_self _ _) (fun hc => hv v hc)
    | insertAlpha r => rfl
    | insertWord r => rfl
    | commitMain => rfl
    | insertDeleted w n => rfl
    | commitDeleted => rfl

/-- Every event of the deleted-words segment belongs to the second
transaction: a deleted-word insert or its commit. -/
lemma delSeg_events (ctx : BuildCtx) :
    ∀ e ∈ delSeg ctx,
      e = DbEvent.commitDeleted ∨ ∃ w n, e = DbEvent.insertDeleted w n := by
  intro e he
  unfold delSeg at he
  by_cases hdw : 0 < (deletedWordsOf ctx).length
  · rw [if_pos hdw] at he
    rcases List.mem_append.mp he with hm | hm
    · rcases List.mem_map.mp hm with ⟨w, _, rfl⟩
      exact Or.inr ⟨w, w.utf8ByteSize, rfl⟩
    · rcases List.mem_singleton.mp hm with rfl
      exact Or.inl rfl
  · rw [if_neg hdw] at he
    cases he

/-- C2 counterexample: the claim says any failing word insert terminates the
process with nothing committed.  Build a one-word lexicon with an oracle that
fails exactly the `words` insert for "AB": the insert for that word is indeed
refused, yet the build is not fatal, commits the alphagram row, and stamps the
version — the process neither terminated nor left the transaction
uncommitted. -/
theorem c2_counterexample :
    failABWordOracles.failWord (mkWordRow ctxTiny (defsOf ctxTiny) "AB" "AB") = true ∧
    (runBuild ctxTiny failABWordOracles).fatal = false ∧
    (replay (runBuild ctxTiny failABWordOracles).trace).words = [] ∧
    (replay (runBuild ctxTiny failABWordOracles).trace).alphagrams ≠ [] ∧
    (replay (runBuild ctxTiny failABWordOracles).trace).dbVersion = [CurrentVersion] := by
  refine ⟨by decide, by decide, by decide, by decide, by decide⟩

/-- C2 amended: if an alphagram insert statement fails mid-transaction (more
generally, whenever the process dies while the later deleted-words and
version statements cannot fail, i.e. it died inside the main loop), the
process terminates at that point: the main transaction is never committed and
no alphagram, word, deleted-word or version rows are left committed.  Word
insert failures, by contrast, are discarded by the code and never affect
whether the build terminates. -/
theorem c2_amended :
    (∀ (ctx : BuildCtx) (orl : Oracles),
        (∀ p, orl.failDeleted p = false) → orl.failVersion = false →
        (runBuild ctx orl).fatal = true →
        replay (runBuild ctx orl).trace =
          { alphagrams := [], words := [], deletedwords := [], dbVersion := [] } ∧
        DbEvent.commitMain ∉ (runBuild ctx orl).trace)
    ∧ (∀ (ctx : BuildCtx) (orl orl' : Oracles),
        orl.failAlpha = orl'.failAlpha → orl.failDeleted = orl'.failDeleted →
        orl.failVersion = orl'.failVersion →
        (runBuild ctx orl).fatal = (runBuild ctx orl').fatal) := by
  constructor
  · intro ctx orl hd hv h
    obtain ⟨_, _, hrep, hnc⟩ := runBuild_fatal_main ctx orl hd hv h
    exact ⟨hrep, hnc⟩
  · intro ctx orl orl' ha hd hv
    simp only [runBuild, apply_ite BuildResult.fatal]
    rw [mainLoop_fatal_indep ctx orl orl' (defsOf ctx) ha,
      deletedLoop_congr orl orl' hd, hv]

/-- Witness for C2 at a concrete build: an oracle failing every alphagram
insert kills the one-word build with nothing committed, and word-insert
verdicts never change fatality. -/
theorem c2_witness :
    (replay (runBuild ctxTiny failAlphaOracles).trace =
      { alphagrams := [], words := [], deletedwords := [], dbVersion := [] } ∧
      DbEvent.commitMain ∉ (runBuild ctxTiny failAlphaOracles).trace) ∧
    (runBuild ctxTiny failAlphaOracles).fatal = (runBuild ctxTiny failAlphaOracles).fatal :=
  ⟨c2_amended.1 ctxTiny failAlphaOracles (fun _ => rfl) rfl (by decide),
    c2_amended.2 ctxTiny failAlphaOracles failAlphaOracles rfl rfl rfl⟩

/-- C8: in one build the persistence steps are ordered — the trace of a
successful build is the main transaction's alphagram and word inserts, its
commit, then the deleted-words transaction (present exactly when deletions
exist, holding only deleted-word inserts and its commit), then the version
stamp as the final statement; replaying everything before the version stamp
yields a dataset with no version row, so the version row is never present
before both persistence phases have completed. -/
theorem c8_transactions (ctx : BuildCtx) (orl : Oracles)
    (h : (runBuild ctx orl).fatal = false) :
    (runBuild ctx orl).trace =
      (mainLoop ctx orl (defsOf ctx) (fun _ => 0) (sortedAlphsOf ctx)).1 ++
        [DbEvent.commitMain] ++ delSeg ctx ++ [DbEvent.insertVersion CurrentVersion] ∧
    (∀ e ∈ (mainLoop ctx orl (defsOf ctx) (fun _ => 0) (sortedAlphsOf ctx)).1,
      (∃ r, e = DbEvent.insertAlpha r) ∨ (∃ r, e = DbEvent.insertWord r)) ∧
    (∀ e ∈ delSeg ctx,
      e = DbEvent.commitDeleted ∨ ∃ w n, e = DbEvent.insertDeleted w n) ∧
    (delSeg ctx = [] ↔ deletedWordsOf ctx = []) ∧
    (replay ((mainLoop ctx orl (defsOf ctx) (fun _ => 0) (sortedAlphsOf ctx)).1 ++
        [DbEvent.commitMain] ++ delSeg ctx)).dbVersion = [] ∧
    (replay (runBuild ctx orl).trace).dbVersion = [CurrentVersion] := by
  obtain ⟨hm, htr⟩ := runBuild_shape ctx orl h
  refine ⟨htr, mainLoop_events ctx orl (defsOf ctx) (sortedAlphsOf ctx) (fun _ => 0),
    delSeg_events ctx, ?_, ?_, ?_⟩
  · constructor
    · intro hseg
      by_cases hdw : 0 < (deletedWordsOf ctx).length
      · exfalso
        unfold delSeg at hseg
        rw [if_pos hdw] at hseg
        rcases List.append_eq_nil.mp hseg with ⟨_, hc⟩
        cases hc
      · cases hx : deletedWordsOf ctx with
        | nil => rfl
        | cons y ys => rw [hx] at hdw; simp at hdw
    · intro hnil
      unfold delSeg
      rw [if_neg (by rw [hnil]; simp)]
  · unfold replay
    rw [foldl_dbVersion]
    intro v hmem
    rcases List.mem_append.mp hmem with hmem | hmem
    · rcases List.mem_append.mp hmem with hmem | hmem
      · rcases mainLoop_events ctx orl (defsOf ctx) (sortedAlphsOf ctx) (fun _ => 0)
          _ hmem with ⟨r, hr⟩ | ⟨r, hr⟩ <;> cases hr
      · rcases List.mem_singleton.mp hmem with hr
        cases hr
    · rcases delSeg_events ctx _ hmem with hr | ⟨w, n, hr⟩ <;> cases hr
  · rw [replay_build ctx orl h]

/-- Witness for C8 at the one-word build with no insert failures. -/
theorem c8_witness :
    (runBuild ctxTiny noFailOracles).trace =
      (mainLoop ctxTiny noFailOracles (defsOf ctxTiny) (fun _ => 0)
          (sortedAlphsOf ctxTiny)).1 ++
        [DbEvent.commitMain] ++ delSeg ctxTiny ++ [DbEvent.insertVersion CurrentVersion] ∧
    (∀ e ∈ (mainLoop ctxTiny noFailOracles (defsOf ctxTiny) (fun _ => 0)
        (sortedAlphsOf ctxTiny)).1,
      (∃ r, e = DbEvent.insertAlpha r) ∨ (∃ r, e = DbEvent.insertWord r)) ∧
    (∀ e ∈ delSeg ctxTiny,
      e = DbEvent.commitDeleted ∨ ∃ w n, e = DbEvent.insertDeleted w n) ∧
    (delSeg ctxTiny = [] ↔ deletedWordsOf ctxTiny = []) ∧
    (replay ((mainLoop ctxTiny noFailOracles (defsOf ctxTiny) (fun _ => 0)
        (sortedAlphsOf ctxTiny)).1 ++
        [DbEvent.commitMain] ++ delSeg ctxTiny)).dbVersion = [] ∧
    (replay (runBuild ctxTiny noFailOracles).trace).dbVersion = [CurrentVersion] :=
  c8_transactions ctxTiny noFailOracles (by decide)

/-- C7 counterexample: the claim says an alphagram of length outside 1-15 is
still processed and persisted and never faults.  A build over a single
sixteen-letter word dies (the insert reads `probs[16]`, out of range for the
sixteen-entry counter array) and persists no alphagram row at all. -/
theorem c7_counterexample :
    (runBuild ctxLong noFailOracles).fatal = true ∧
    (replay (runBuild ctxLong noFailOracles).trace).alphagrams = [] ∧
    (replay (runBuild ctxLong noFailOracles).trace).words = [] := by
  refine ⟨by decide, by decide, by decide⟩

/-- C7 amended: when every alphagram class is at most 15 letters long, the
build processes and persists every class's non-ranking statistics (alphagram,
length, combinations, word count, point value, vowel count, provenance flags,
difficulty) without faulting; but a class longer than 15 letters makes the
build fault (out-of-range read of the probability counter array) before its
row — or anything else of the main transaction — is committed. -/
theorem c7_amended :
    (∀ (ctx : BuildCtx) (orl : Oracles),
        (∀ r, orl.failAlpha r = false) → (∀ p, orl.failDeleted p = false) →
        orl.failVersion = false →
        (∀ a ∈ sortedAlphsOf ctx, a.alphagram.length ≤ 15) →
        (sortedAlphsOf ctx).length < 4294967296 →
        (runBuild ctx orl).fatal = false ∧
        (replay (runBuild ctx orl).trace).alphagrams.map rowStats =
          (sortedAlphsOf ctx).map (classStats ctx (defsOf ctx)))
    ∧ (∀ (ctx : BuildCtx) (orl : Oracles),
        (∃ a ∈ sortedAlphsOf ctx, 15 < a.alphagram.length) →
        (runBuild ctx orl).fatal = true) := by
  constructor
  · intro ctx orl ha hd hv hlen hsize
    have hbound : ∀ i, (fun _ => (0 : Nat)) i + countLen (sortedAlphsOf ctx) i < 4294967296 := by
      intro i
      have := countLen_le_length (sortedAlphsOf ctx) i
      simp only []
      omega
    obtain ⟨hm, hstats, _⟩ :=
      mainLoop_ok ctx orl (defsOf ctx) ha (sortedAlphsOf ctx) (fun _ => 0) hlen hbound
    have hfatal : (runBuild ctx orl).fatal = false := by
      simp only [runBuild]
      rw [hm]
      by_cases hdw : 0 < (deletedWordsOf ctx).length
      · rw [deletedLoop_nofail orl hd]
        simp [hdw, hv]
      · simp [hdw, hv]
    refine ⟨hfatal, ?_⟩
    rw [replay_build ctx orl hfatal]
    exact hstats
  · intro ctx orl ⟨a, hmem, hlen⟩
    have hm := mainLoop_offender ctx orl (defsOf ctx) (sortedAlphsOf ctx) (fun _ => 0)
      ⟨a, hmem, hlen⟩
    simp only [runBuild]
    rw [hm]
    simp

/-- Witness for C7: the one-word build persists its class's statistics, and
the sixteen-letter build faults. -/
theorem c7_witness :
    ((runBuild ctxTiny noFailOracles).fatal = false ∧
      (replay (runBuild ctxTiny noFailOracles).trace).alphagrams.map rowStats =
        (sortedAlphsOf ctxTiny).map (classStats ctxTiny (defsOf ctxTiny))) ∧
    (runBuild ctxLong noFailOracles).fatal = true :=
  ⟨c7_amended.1 ctxTiny noFailOracles (fun _ => rfl) (fun _ => rfl) rfl
      (by decide) (by decide),
    c7_amended.2 ctxLong noFailOracles
      ⟨⟨["ABCDEFGHIJKLMNOP"], 1, "ABCDEFGHIJKLMNOP", 0, 0, 0⟩, by decide, by decide⟩⟩

/-- Replacing the value at a present key makes a lookup of that key return
the new pair. -/
lemma find_replace_self {α : Type} (k : String) (v : α) :
    ∀ m : List (String × α), m.any (fun p => p.1 == k) = true →
      (m.map (fun p => if p.1 == k then (k, v) else p)).find? (fun p => p.1 == k) =
        some (k, v) := by
  intro m
  induction m with
  | nil => intro h; cases h
  | cons p m ih =>
    intro h
    by_cases hp : (p.1 == k) = true
    · rw [List.map_cons, if_pos hp]
      exact List.find?_cons_of_pos _ (by simp)
    · rw [List.map_cons, if_neg hp, List.find?_cons_of_neg _ (by simp [hp])]
      apply ih
      simpa [List.any_cons, hp] using h

/-- Appending a fresh key makes a lookup of that key find it. -/
lemma find_append_self {α : Type} (k : String) (v : α) :
    ∀ m : List (String × α), m.any (fun p => p.1 == k) = false →
      (m ++ [(k, v)]).find? (fun p => p.1 == k) = some (k, v) := by
  intro m
  induction m with
  | nil => intro _; exact List.find?_cons_of_pos _ (by simp)
  | cons p m ih =>
    intro h
    simp only [List.any_cons, Bool.or_eq_false_iff] at h
    rw [List.cons_append, List.find?_cons_of_neg _ (by simp [h.1])]
    exact ih h.2

/-- Replacing the value at one key does not change lookups of other keys. -/
lemma find_replace_ne {α : Type} (g x : String) (v : α) (hne : x ≠ g) :
    ∀ m : List (String × α),
      (m.map (fun p => if p.1 == g then (g, v) else p)).find? (fun p => p.1 == x) =
        m.find? (fun p => p.1 == x) := by
  intro m
  induction m with
  | nil => rfl
  | cons p m ih =>
    by_cases hp : (p.1 == g) = true
    · have hgx : ¬ ((g, v).1 == x) = true := by
        simp only [beq_iff_eq]
        exact fun hc => hne hc.symm
      have hpx : ¬ (p.1 == x) = true := by
        simp only [beq_iff_eq, eq_of_beq hp]
        exact fun hc => hne hc.symm
      rw [List.map_cons, if_pos hp, List.find?_cons_of_neg _ (by exact hgx),
        List.find?_cons_of_neg _ (by exact hpx)]
      exact ih
    · rw [List.map_cons, if_neg hp]
      by_cases hx : (p.1 == x) = true
      · rw [List.find?_cons_of_pos _ (by exact hx), List.find?_cons_of_pos _ (by exact hx)]
      · rw [List.find?_cons_of_neg _ (by exact hx), List.find?_cons_of_neg _ (by exact hx)]
        exact ih

/-- Appending a pair under one key does not change lookups of other keys. -/
lemma find_append_ne {α : Type} (g x : String) (v : α) (hne : x ≠ g) :
    ∀ m : List (String × α),
      (m ++ [(g, v)]).find? (fun p => p.1 == x) = m.find? (fun p => p.1 == x) := by
  intro m
  induction m with
  | nil =>
    rw [List.nil_append,
      List.find?_cons_of_neg _ (by simp only [beq_iff_eq]; exact fun hc => hne hc.symm)]
  | cons p m ih =>
    by_cases hx : (p.1 == x) = true
    · rw [List.cons_append, List.find?_cons_of_pos _ (by exact hx),
        List.find?_cons_of_pos _ (by exact hx)]
    · rw [List.cons_append, List.find?_cons_of_neg _ (by exact hx),
        List.find?_cons_of_neg _ (by exact hx)]
      exact ih

/-- Map-assignment then lookup of the same key yields the stored value. -/
lemma mapLookup_set_self {α : Type} (m : List (String × α)) (k : String) (v : α) :
    mapLookup (mapSet m k v) k = some v := by
  unfold mapLookup mapSet
  by_cases ha : m.any (fun p => p.1 == k) = true
  · rw [if_pos ha, find_replace_self k v m ha]
    rfl
  · rw [if_neg ha,
      find_append_self k v m (by simp only [Bool.not_eq_true] at ha; exact ha)]
    rfl

/-- Map-assignment leaves lookups of other keys unchanged. -/
lemma mapLookup_set_ne {α : Type} (m : List (String × α)) (g x : String) (v : α)
    (hne : x ≠ g) : mapLookup (mapSet m g v) x = mapLookup m x := by
  unfold mapLookup mapSet
  by_cases ha : m.any (fun p => p.1 == g) = true
  · rw [if_pos ha, find_replace_ne g x v hne m]
  · rw [if_neg ha, find_append_ne g x v hne m]

/-- Replacing a value in place keeps the key list unchanged. -/
lemma mapSet_keys_aux {α : Type} (k : String) (v : α) :
    ∀ m : List (String × α),
      (m.map (fun p => if p.1 == k then (k, v) else p)).map Prod.fst = m.map Prod.fst := by
  intro m
  induction m with
  | nil => rfl
  | cons p m ih =>
    simp only [List.map_cons, ih]
    by_cases hp : (p.1 == k) = true
    · rw [if_pos hp]
      simp [eq_of_beq hp]
    · rw [if_neg hp]

/-- Map-assignment preserves distinctness of the key list. -/
lemma mapSet_keys_nodup {α : Type} (m : List (String × α)) (k : String) (v : α)
    (h : (m.map Prod.fst).Nodup) : ((mapSet m k v).map Prod.fst).Nodup := by
  unfold mapSet
  by_cases ha : m.any (fun p => p.1 == k) = true
  · rw [if_pos ha, mapSet_keys_aux]
    exact h
  · rw [if_neg ha, List.map_append]
    have hk : k ∉ m.map Prod.fst := by
      intro hmem
      rcases List.mem_map.mp hmem with ⟨p, hp, hpk⟩
      exact ha (List.any_eq_true.mpr ⟨p, hp, by simp [hpk]⟩)
    rw [List.nodup_append]
    exact ⟨h, List.nodup_singleton _, by
      intro a ha' hb
      rw [List.map_singleton, List.mem_singleton] at hb
      subst hb
      exact hk ha'⟩

/-- Keys after a map-assignment: the old keys plus the assigned key. -/
lemma mapSet_keys_mem {α : Type} (m : List (String × α)) (k x : String) (v : α) :
    x ∈ (mapSet m k v).map Prod.fst ↔ x ∈ m.map Prod.fst ∨ x = k := by
  unfold mapSet
  by_cases ha : m.any (fun p => p.1 == k) = true
  · rw [if_pos ha, mapSet_keys_aux]
    constructor
    · exact Or.inl
    · rintro (hm | rfl)
      · exact hm
      · rcases List.any_eq_true.mp ha with ⟨p, hp, hpk⟩
        exact List.mem_map.mpr ⟨p, hp, eq_of_beq (by simpa using hpk)⟩
  · rw [if_neg ha, List.map_append]
    simp

/-- Absent lookups are exactly the keys outside the key list. -/
lemma mapLookup_eq_none {α : Type} (m : List (String × α)) (x : String) :
    mapLookup m x = none ↔ x ∉ m.map Prod.fst := by
  unfold mapLookup
  rw [Option.map_eq_none', List.find?_eq_none]
  constructor
  · intro h hmem
    rcases List.mem_map.mp hmem with ⟨p, hp, hpx⟩
    exact h p hp (by simp [hpx])
  · intro h p hp hbeq
    exact h (List.mem_map.mpr ⟨p, hp, eq_of_beq hbeq⟩)

/-- A failed lookup means no entry has the key. -/
lemma any_eq_false_of_lookup_none {α : Type} (m : List (String × α)) (k : String)
    (h : mapLookup m k = none) : m.any (fun p => p.1 == k) = false := by
  rw [mapLookup_eq_none] at h
  rw [List.any_eq_false]
  intro p hp hbeq
  exact h (List.mem_map.mpr ⟨p, hp, eq_of_beq hbeq⟩)

/-- With distinct keys, lookup of a member pair's key yields its value. -/
lemma mapLookup_of_mem_nodup {α : Type} :
    ∀ (m : List (String × α)), (m.map Prod.fst).Nodup →
      ∀ pr ∈ m, mapLookup m pr.1 = some pr.2 := by
  intro m
  induction m with
  | nil => intro _ pr hpr; cases hpr
  | cons q m ih =>
    intro hnd pr hpr
    simp only [List.map_cons, List.nodup_cons] at hnd
    rcases List.mem_cons.mp hpr with rfl | hpr
    · unfold mapLookup
      rw [List.find?_cons_of_pos _ (by simp)]
      rfl
    · have hq : ¬ (q.1 == pr.1) = true := by
        simp only [beq_iff_eq]
        intro hc
        exact hnd.1 (hc ▸ List.mem_map.mpr ⟨pr, hpr, rfl⟩)
      unfold mapLookup
      rw [List.find?_cons_of_neg _ (by exact hq)]
      have := ih hnd.2 pr hpr
      unfold mapLookup at this
      exact this

/-- A line without tokens contributes no word. -/
lemma wordTokens_cons_none {line : String} {rest : List String}
    (h : lineEntry line = none) :
    wordTokens (some (line :: rest)) = wordTokens (some rest) := by
  simp only [wordTokens, List.filterMap_cons, h]
  rfl

/-- A line with tokens contributes its uppercased first token. -/
lemma wordTokens_cons_some {line : String} {rest : List String} {p : String × String}
    (h : lineEntry line = some p) :
    wordTokens (some (line :: rest)) = p.1 :: wordTokens (some rest) := by
  simp only [wordTokens, List.filterMap_cons, h]
  rfl

/-- A present lookup means some entry has the key. -/
lemma any_eq_true_of_lookup_some {α : Type} (m : List (String × α)) (k : String) (a : α)
    (h : mapLookup m k = some a) : m.any (fun p => p.1 == k) = true := by
  cases ha : m.any (fun p => p.1 == k) with
  | true => rfl
  | false =>
    exfalso
    have hnone : mapLookup m k = none := by
      unfold mapLookup
      rw [List.find?_eq_none.mpr]
      · rfl
      · intro p hp hbeq
        have hc : m.any (fun q => q.1 == k) = true := List.any_eq_true.mpr ⟨p, hp, hbeq⟩
        rw [ha] at hc
        cases hc
    rw [hnone] at h
    cases h

/-- The scanner loop keeps the definition-map keys distinct. -/
lemma populateLoop_def_keys_nodup (combos : String → Bool → Nat)
    (mkAlph : String → String) :
    ∀ (lines : List String) (defs : List (String × String))
      (alphs : List (String × Alphagram)) (calls : List String),
      (defs.map Prod.fst).Nodup →
      ((populateLoop combos mkAlph lines defs alphs calls).definitionMap.map
        Prod.fst).Nodup := by
  intro lines
  induction lines with
  | nil => intro defs alphs calls h; exact h
  | cons line rest ih =>
    intro defs alphs calls h
    rcases hle : lineEntry line with _ | ⟨word, defn⟩
    · simp only [populateLoop, hle]
      exact ih _ _ _ h
    · simp only [populateLoop, hle, addToDefinitions]
      rcases hlk : mapLookup alphs (mkAlph word) with _ | a
      · simp only [hlk]
        exact ih _ _ _ (mapSet_keys_nodup _ _ _ h)
      · simp only [hlk]
        exact ih _ _ _ (mapSet_keys_nodup _ _ _ h)

/-- The scanner loop's definition-map keys are the initial keys plus the word
tokens of the scanned lines. -/
lemma populateLoop_def_keys_mem (combos : String → Bool → Nat)
    (mkAlph : String → String) :
    ∀ (lines : List String) (defs : List (String × String))
      (alphs : List (String × Alphagram)) (calls : List String) (x : String),
      x ∈ (populateLoop combos mkAlph lines defs alphs calls).definitionMap.map
        Prod.fst ↔ x ∈ defs.map Prod.fst ∨ x ∈ wordTokens (some lines) := by
  intro lines
  induction lines with
  | nil =>
    intro defs alphs calls x
    simp [populateLoop, wordTokens]
  | cons line rest ih =>
    intro defs alphs calls x
    rcases hle : lineEntry line with _ | ⟨word, defn⟩
    · rw [wordTokens_cons_none hle]
      simp only [populateLoop, hle]
      exact ih _ _ _ x
    · rw [wordTokens_cons_some hle]
      simp only [populateLoop, hle, addToDefinitions]
      rcases hlk : mapLookup alphs (mkAlph word) with _ | a
      · simp only [hlk]
        rw [ih, mapSet_keys_mem]
        simp [List.mem_cons]
        tauto
      · simp only [hlk]
        rw [ih, mapSet_keys_mem]
        simp [List.mem_cons]
        tauto

/-- The scanner loop keeps the alphagram-map keys distinct. -/
lemma populateLoop_alph_keys_nodup (combos : String → Bool → Nat)
    (mkAlph : String → String) :
    ∀ (lines : List String) (defs : List (String × String))
      (alphs : List (String × Alphagram)) (calls : List String),
      (alphs.map Prod.fst).Nodup →
      ((populateLoop combos mkAlph lines defs alphs calls).alphagrams.map
        Prod.fst).Nodup := by
  intro lines
  induction lines with
  | nil => intro defs alphs calls h; exact h
  | cons line rest ih =>
    intro defs alphs calls h
    rcases hle : lineEntry line with _ | ⟨word, defn⟩
    · simp only [populateLoop, hle]
      exact ih _ _ _ h
    · simp only [populateLoop, hle]
      rcases hlk : mapLookup alphs (mkAlph word) with _ | a
      · simp only [hlk]
        exact ih _ _ _ (mapSet_keys_nodup _ _ _ h)
      · simp only [hlk]
        exact ih _ _ _ (mapSet_keys_nodup _ _ _ h)

/-- The combination counter is called exactly once per alphagram-map key: the
call trace stays equal to the key list. -/
lemma populateLoop_calls (combos : String → Bool → Nat) (mkAlph : String → String) :
    ∀ (lines : List String) (defs : List (String × String))
      (alphs : List (String × Alphagram)) (calls : List String),
      calls = alphs.map Prod.fst →
      (populateLoop combos mkAlph lines defs alphs calls).comboCalls =
        (populateLoop combos mkAlph lines defs alphs calls).alphagrams.map Prod.fst := by
  intro lines
  induction lines with
  | nil => intro defs alphs calls h; exact h
  | cons line rest ih =>
    intro defs alphs calls h
    rcases hle : lineEntry line with _ | ⟨word, defn⟩
    · simp only [populateLoop, hle]
      exact ih _ _ _ h
    · simp only [populateLoop, hle]
      rcases hlk : mapLookup alphs (mkAlph word) with _ | a
      · simp only [hlk]
        apply ih
        unfold mapSet
        rw [if_neg (by rw [any_eq_false_of_lookup_none _ _ hlk]; simp)]
        rw [List.map_append, h]
        rfl
      · simp only [hlk]
        apply ih
        unfold mapSet
        rw [if_pos (any_eq_true_of_lookup_some _ _ _ hlk), mapSet_keys_aux]
        exact h

/-- Lookup characterization of the scanner loop: a key's class accumulates, in
input order, every token of the remaining lines whose alphagram is that key;
a class created by the loop records the token list, the combination count
fetched at creation, and the key as its alphagram. -/
lemma populateLoop_lookup (combos : String → Bool → Nat) (mkAlph : String → String) :
    ∀ (lines : List String) (defs : List (String × String))
      (alphs : List (String × Alphagram)) (calls : List String) (k : String),
      mapLookup (populateLoop combos mkAlph lines defs alphs calls).alphagrams k =
        (match mapLookup alphs k with
         | some a => some { a with words :=
             a.words ++ (wordTokens (some lines)).filter (fun w => mkAlph w == k) }
         | none =>
             if (wordTokens (some lines)).filter (fun w => mkAlph w == k) = [] then none
             else some ⟨(wordTokens (some lines)).filter (fun w => mkAlph w == k),
               combos k true, k, 0, 0, 0⟩) := by
  intro lines
  induction lines with
  | nil =>
    intro defs alphs calls k
    simp only [populateLoop, wordTokens, List.filterMap_nil, List.filter_nil]
    rcases h : mapLookup alphs k with _ | a
    · simp
    · simp
  | cons line rest ih =>
    intro defs alphs calls k
    rcases hle : lineEntry line with _ | ⟨word, defn⟩
    · rw [wordTokens_cons_none hle]
      simp only [populateLoop, hle]
      exact ih _ _ _ k
    · rw [wordTokens_cons_some hle]
      simp only [populateLoop, hle]
      by_cases hgk : mkAlph word = k
      · subst hgk
        rcases hlk : mapLookup alphs (mkAlph word) with _ | a
        · simp only [hlk]
          rw [ih, mapLookup_set_self]
          rw [List.filter_cons_of_pos (by simp)]
          simp
        · simp only [hlk]
          rw [ih, mapLookup_set_self]
          rw [List.filter_cons_of_pos (by simp)]
          simp [List.append_assoc]
      · have hgkb : (mkAlph word == k) = false := by simpa using hgk
        rcases hlk : mapLookup alphs (mkAlph word) with _ | a
        · simp only [hlk]
          rw [ih, mapLookup_set_ne _ _ _ _ (fun hc => hgk hc.symm)]
          rw [List.filter_cons_of_neg (by simp [hgkb])]
        · simp only [hlk]
          rw [ih, mapLookup_set_ne _ _ _ _ (fun hc => hgk hc.symm)]
          rw [List.filter_cons_of_neg (by simp [hgkb])]

/-- Keys of the definition map of a populate run are distinct and are exactly
the word tokens of the file. -/
lemma populate_def_keys (file : Option (List String)) (combos : String → Bool → Nat)
    (mkAlph : String → String) :
    ((populateAlphsDefs file combos mkAlph).definitionMap.map Prod.fst).Nodup ∧
    ∀ x, x ∈ (populateAlphsDefs file combos mkAlph).definitionMap.map Prod.fst ↔
      x ∈ wordTokens file := by
  cases file with
  | none => simp [populateAlphsDefs, wordTokens, expandDefinitions]
  | some lines =>
    constructor
    · simpa [populateAlphsDefs, expandDefinitions] using
        populateLoop_def_keys_nodup combos mkAlph lines [] [] [] (by simp)
    · intro x
      have h := populateLoop_def_keys_mem combos mkAlph lines [] [] [] x
      simpa [populateAlphsDefs, expandDefinitions] using h

/-- Class facts of a populate run: distinct keys; each class records its key
as alphagram, the key's token occurrences (in order, with multiplicity) as
members, and the combination count fetched at creation; the combination
counter was called once per class, i.e. once per distinct alphagram among the
tokens. -/
lemma populate_classes (lines : List String) (combos : String → Bool → Nat)
    (mkAlph : String → String) :
    ((populateAlphsDefs (some lines) combos mkAlph).alphagrams.map Prod.fst).Nodup ∧
    (∀ pr ∈ (populateAlphsDefs (some lines) combos mkAlph).alphagrams,
        pr.2.alphagram = pr.1 ∧
        pr.2.words = (wordTokens (some lines)).filter (fun w => mkAlph w == pr.1) ∧
        pr.2.combinations = combos pr.1 true) ∧
    (populateAlphsDefs (some lines) combos mkAlph).comboCalls =
      (populateAlphsDefs (some lines) combos mkAlph).alphagrams.map Prod.fst ∧
    (∀ x, x ∈ (populateAlphsDefs (some lines) combos mkAlph).alphagrams.map Prod.fst ↔
        ∃ w ∈ wordTokens (some lines), mkAlph w = x) := by
  have halphs : (populateAlphsDefs (some lines) combos mkAlph).alphagrams =
      (populateLoop combos mkAlph lines [] [] []).alphagrams := by
    simp [populateAlphsDefs]
  have hcalls : (populateAlphsDefs (some lines) combos mkAlph).comboCalls =
      (populateLoop combos mkAlph lines [] [] []).comboCalls := by
    simp [populateAlphsDefs]
  have hnd : ((populateLoop combos mkAlph lines [] [] []).alphagrams.map
      Prod.fst).Nodup :=
    populateLoop_alph_keys_nodup combos mkAlph lines [] [] [] (by simp)
  have hchar := populateLoop_lookup combos mkAlph lines [] [] []
  refine ⟨halphs ▸ hnd, ?_, ?_, ?_⟩
  · intro pr hpr
    rw [halphs] at hpr
    have hlk := mapLookup_of_mem_nodup _ hnd pr hpr
    have hch := hchar pr.1
    rw [hlk] at hch
    simp only [mapLookup, List.find?_nil, Option.map_none'] at hch
    by_cases hT : (wordTokens (some lines)).filter (fun w => mkAlph w == pr.1) = []
    · rw [if_pos hT] at hch
      cases hch
    · rw [if_neg hT] at hch
      have hpr2 := Option.some.inj hch
      exact ⟨by rw [hpr2], by rw [hpr2], by rw [hpr2]⟩
  · rw [halphs, hcalls]
    exact populateLoop_calls combos mkAlph lines [] [] [] rfl
  · intro x
    rw [halphs]
    have hch := hchar x
    simp only [mapLookup, List.find?_nil, Option.map_none'] at hch
    constructor
    · intro hmem
      by_cases hT : (wordTokens (some lines)).filter (fun w => mkAlph w == x) = []
      · rw [if_pos hT] at hch
        exact absurd hmem ((mapLookup_eq_none _ _).mp hch)
      · rcases List.exists_mem_of_ne_nil _ hT with ⟨w, hw⟩
        rcases List.mem_filter.mp hw with ⟨hwT, hwk⟩
        exact ⟨w, hwT, eq_of_beq hwk⟩
    · rintro ⟨w, hwT, rfl⟩
      have hT : (wordTokens (some lines)).filter (fun v => mkAlph v == mkAlph w) ≠ [] := by
        intro hnil
        have := List.filter_eq_nil_iff.mp hnil w hwT
        simp at this
      rw [if_neg hT] at hch
      by_contra hmem
      have hnone := (mapLookup_eq_none
        (populateLoop combos mkAlph lines [] [] []).alphagrams (mkAlph w)).mpr hmem
      simp only [mapLookup] at hnone
      rw [hnone] at hch
      cases hch

/-- C6: deletion detection runs only when a prior edition exists.  In a
successful build the committed deletedwords rows are exactly the prior
edition's words (re-scanned from its word list) that the current dictionary
lacks, sorted lexicographically, one row per such word, each carrying the
word and its byte length; with no prior edition no rows are written. -/
theorem c6_deletions (ctx : BuildCtx) (orl : Oracles)
    (h : (runBuild ctx orl).fatal = false) :
    (ctx.priorLex = none → (replay (runBuild ctx orl).trace).deletedwords = []) ∧
    (replay (runBuild ctx orl).trace).deletedwords = deletedRowsOf ctx ∧
    List.Pairwise strLe ((replay (runBuild ctx orl).trace).deletedwords.map Prod.fst) ∧
    ((replay (runBuild ctx orl).trace).deletedwords.map Prod.fst).Nodup ∧
    (∀ p, ctx.priorLex = some p → ∀ w : String,
        ((w, w.utf8ByteSize) ∈ (replay (runBuild ctx orl).trace).deletedwords ↔
          w ∈ wordTokens p.file ∧ ctx.curDawg w = false)) := by
  have hdb := replay_build ctx orl h
  have heq : (replay (runBuild ctx orl).trace).deletedwords = deletedRowsOf ctx := by
    rw [hdb]
  have hfst : (deletedRowsOf ctx).map Prod.fst =
      List.insertionSort strLe (deletedWordsOf ctx) := by
    unfold deletedRowsOf
    rw [List.map_map]
    have hco : (Prod.fst ∘ fun w : String => (w, w.utf8ByteSize)) = id := rfl
    rw [hco, List.map_id]
  have hdwnd : (deletedWordsOf ctx).Nodup := by
    rcases hp : ctx.priorLex with _ | p
    · simp [deletedWordsOf, hp]
    · simp only [deletedWordsOf, hp]
      exact List.Nodup.filter _ (populate_def_keys p.file p.combinations p.mkAlphagram).1
  refine ⟨?_, heq, ?_, ?_, ?_⟩
  · intro hp
    rw [heq]
    simp [deletedRowsOf, deletedWordsOf, hp, List.insertionSort]
  · rw [heq, hfst]
    exact List.sorted_insertionSort strLe (deletedWordsOf ctx)
  · rw [heq, hfst]
    exact ((List.perm_insertionSort strLe (deletedWordsOf ctx)).nodup_iff).mpr hdwnd
  · intro p hp w
    rw [heq]
    unfold deletedRowsOf
    constructor
    · intro hmem
      rcases List.mem_map.mp hmem with ⟨x, hx, hxe⟩
      have hxw : x = w := congrArg Prod.fst hxe
      subst hxw
      have hx' : x ∈ deletedWordsOf ctx :=
        (List.perm_insertionSort strLe (deletedWordsOf ctx)).mem_iff.mp hx
      simp only [deletedWordsOf, hp] at hx'
      rcases List.mem_filter.mp hx' with ⟨hk, hcd⟩
      refine ⟨((populate_def_keys p.file p.combinations p.mkAlphagram).2 x).mp hk, ?_⟩
      simpa using hcd
    · rintro ⟨hwT, hcd⟩
      apply List.mem_map.mpr
      refine ⟨w, ?_, rfl⟩
      apply (List.perm_insertionSort strLe (deletedWordsOf ctx)).mem_iff.mpr
      simp only [deletedWordsOf, hp]
      apply List.mem_filter.mpr
      exact ⟨((populate_def_keys p.file p.combinations p.mkAlphagram).2 w).mpr hwT,
        by simp [hcd]⟩

/-- Witness for C6: the build whose prior edition lists "QUIZ" while the
current dictionary rejects everything commits exactly the row ("QUIZ", 4). -/
theorem c6_witness :
    (replay (runBuild ctxPrior noFailOracles).trace).deletedwords = [("QUIZ", 4)] ∧
    ((ctxPrior.priorLex = none →
        (replay (runBuild ctxPrior noFailOracles).trace).deletedwords = []) ∧
      (replay (runBuild ctxPrior noFailOracles).trace).deletedwords =
        deletedRowsOf ctxPrior ∧
      List.Pairwise strLe
        ((replay (runBuild ctxPrior noFailOracles).trace).deletedwords.map Prod.fst) ∧
      ((replay (runBuild ctxPrior noFailOracles).trace).deletedwords.map Prod.fst).Nodup ∧
      (∀ p, ctxPrior.priorLex = some p → ∀ w : String,
          ((w, w.utf8ByteSize) ∈
              (replay (runBuild ctxPrior noFailOracles).trace).deletedwords ↔
            w ∈ wordTokens p.file ∧ ctxPrior.curDawg w = false))) :=
  ⟨by decide, c6_deletions ctxPrior noFailOracles (by decide)⟩

/-- Word rows of a trace starting with a word insert. -/
lemma wordRowsOf_cons_word (r : WordRow) (tr : List DbEvent) :
    wordRowsOf (DbEvent.insertWord r :: tr) = r :: wordRowsOf tr := rfl

/-- Word rows of a trace starting with an alphagram insert. -/
lemma wordRowsOf_cons_alpha (r : AlphaRow) (tr : List DbEvent) :
    wordRowsOf (DbEvent.insertAlpha r :: tr) = wordRowsOf tr := rfl

/-- Word rows of a segment of word inserts. -/
lemma wordRowsOf_map_insertWord (f : String → WordRow) :
    ∀ ws : List String,
      wordRowsOf (ws.map (fun w => DbEvent.insertWord (f w))) = ws.map f := by
  intro ws
  induction ws with
  | nil => rfl
  | cons w ws ih => rw [List.map_cons, wordRowsOf_cons_word, ih, List.map_cons]

/-- Occurrence count of a word in a filtered list. -/
lemma count_filter_eq (p : String → Bool) (w : String) :
    ∀ T : List String, (T.filter p).count w = if p w = true then T.count w else 0 := by
  intro T
  by_cases h : p w = true
  · rw [if_pos h]
    induction T with
    | nil => rfl
    | cons t T ih =>
      by_cases ht : p t = true
      · rw [List.filter_cons_of_pos ht, List.count_cons, List.count_cons, ih]
      · rw [List.filter_cons_of_neg ht, ih, List.count_cons]
        have hne : ¬ t = w := by
          intro hc
          rw [hc] at ht
          exact ht h
        have hne' : ¬ w = t := fun hc => hne hc.symm
        simp [hne, hne']
  · rw [if_neg h, List.count_eq_zero]
    intro hmem
    exact h (List.of_mem_filter hmem)

/-- Occurrence count of a word over the concatenated member lists of classes
with pairwise-distinct keys, each class holding exactly its key's occurrences
of a common token stream: every occurrence is counted exactly once. -/
lemma class_count (T : List String) (mkAlph : String → String) (w : String) :
    ∀ m : List (String × Alphagram), (m.map Prod.fst).Nodup →
      (∀ pr ∈ m, pr.2.words = T.filter (fun v => mkAlph v == pr.1)) →
      ((m.map Prod.snd).flatMap Alphagram.words).count w =
        if mkAlph w ∈ m.map Prod.fst then T.count w else 0 := by
  intro m
  induction m with
  | nil =>
    intro _ _
    simp
  | cons pr m ih =>
    intro hnd hcl
    rw [List.map_cons, List.nodup_cons] at hnd
    have hstep : ((List.map Prod.snd (pr :: m)).flatMap Alphagram.words).count w =
        (pr.2.words).count w + ((m.map Prod.snd).flatMap Alphagram.words).count w := by
      rw [List.map_cons, List.flatMap_cons, List.count_append]
    rw [hstep, hcl pr (List.mem_cons_self pr m), count_filter_eq,
      ih hnd.2 (fun q hq => hcl q (List.mem_cons_of_mem pr hq))]
    by_cases hk : mkAlph w = pr.1
    · have h1 : (fun v => mkAlph v == pr.1) w = true := by
        simp [hk]
      have h2 : ¬ (mkAlph w ∈ List.map Prod.fst m) := by
        rw [hk]
        exact hnd.1
      have h3 : mkAlph w ∈ List.map Prod.fst (pr :: m) := by
        rw [List.map_cons, hk]
        exact List.mem_cons_self _ _
      rw [if_pos h1, if_neg h2, if_pos h3, Nat.add_zero]
    · have h1 : ¬ ((fun v => mkAlph v == pr.1) w = true) := by
        simp [hk]
      have h4 : mkAlph w ∈ List.map Prod.fst (pr :: m) ↔
          mkAlph w ∈ List.map Prod.fst m := by
        rw [List.map_cons, List.mem_cons]
        constructor
        · intro hcase
          rcases hcase with hcase | hcase
          · exact absurd hcase hk
          · exact hcase
        · intro hcase
          exact Or.inr hcase
      by_cases hm2 : mkAlph w ∈ List.map Prod.fst m
      · rw [if_neg h1, if_pos hm2, if_pos (h4.mpr hm2), Nat.zero_add]
      · rw [if_neg h1, if_neg hm2, if_neg (fun hc => hm2 (h4.mp hc))]

/-- When neither word nor alphagram inserts fail and every class is short, the
word rows of the main-loop trace are exactly one row per member word of each
class, in class order, built by `mkWordRow`. -/
lemma mainLoop_word_rows (ctx : BuildCtx) (orl : Oracles) (defs : List (String × String))
    (hw : ∀ r, orl.failWord r = false) (ha : ∀ r, orl.failAlpha r = false) :
    ∀ (s : List Alphagram) (probs : Nat → Nat),
      (∀ a ∈ s, a.alphagram.length ≤ 15) →
      wordRowsOf (mainLoop ctx orl defs probs s).1 =
        s.flatMap (fun a => a.words.map (mkWordRow ctx defs a.alphagram)) := by
  intro s
  induction s with
  | nil =>
    intro probs _
    rfl
  | cons a rest ih =>
    intro probs hlen
    have h15 : a.alphagram.length ≤ 15 := hlen a (List.mem_cons_self a rest)
    have hnot : ¬ 15 < a.alphagram.length := by omega
    have hstep : mainLoop ctx orl defs probs (a :: rest) =
        ((wordLoop ctx orl defs a.alphagram a.words).1 ++
          (DbEvent.insertAlpha (mkAlphaRow ctx
              ((probs a.alphagram.length + 1) % 4294967296) a.alphagram.length a
              (wordLoop ctx orl defs a.alphagram a.words).2) ::
            (mainLoop ctx orl defs (bump probs a.alphagram.length) rest).1),
         (mainLoop ctx orl defs (bump probs a.alphagram.length) rest).2) := by
      simp only [mainLoop]
      rw [if_pos h15, if_neg hnot]
      have hfa : ¬ (orl.failAlpha (mkAlphaRow ctx
          (bump probs a.alphagram.length a.alphagram.length) a.alphagram.length a
          (wordLoop ctx orl defs a.alphagram a.words).2) = true) := by
        simp [ha]
      rw [if_neg hfa]
      have hbv : bump probs a.alphagram.length a.alphagram.length =
          (probs a.alphagram.length + 1) % 4294967296 := by
        simp [bump]
      rw [hbv]
    rw [hstep]
    simp only [wordRowsOf_append, wordRowsOf_cons_alpha, List.flatMap_cons,
      wordLoop_rows_nofail ctx orl defs a.alphagram hw, wordRowsOf_map_insertWord,
      ih (bump probs a.alphagram.length) (fun x hx => hlen x (List.mem_cons_of_mem a hx))]

/-- C10: a word occurring on several non-empty lines is appended again to its
alphagram class's member list — each class's members are exactly the token
stream filtered to its key, so its length (the `num_anagrams` column) counts
occurrences rather than distinct words; the concatenated member lists carry
every occurrence (the count of any word over all classes equals its token
count); the combination count is fetched exactly once per distinct alphagram,
on first encounter; and a non-failing main loop writes one `words` row per
member-list entry, hence one row per occurrence. -/
theorem c10_duplicates (lines : List String) (combos : String → Bool → Nat)
    (mkAlph : String → String) :
    (∀ pr ∈ (populateAlphsDefs (some lines) combos mkAlph).alphagrams,
        pr.2.words = (wordTokens (some lines)).filter (fun w => mkAlph w == pr.1) ∧
        pr.2.words.length = (wordTokens (some lines)).countP (fun w => mkAlph w == pr.1) ∧
        pr.2.combinations = combos pr.1 true) ∧
    (∀ w, (((populateAlphsDefs (some lines) combos mkAlph).alphagrams.map
          Prod.snd).flatMap Alphagram.words).count w = (wordTokens (some lines)).count w) ∧
    (populateAlphsDefs (some lines) combos mkAlph).comboCalls.Nodup ∧
    (∀ x, x ∈ (populateAlphsDefs (some lines) combos mkAlph).comboCalls ↔
        ∃ w ∈ wordTokens (some lines), mkAlph w = x) ∧
    (∀ (ctx : BuildCtx) (orl : Oracles) (defs : List (String × String))
        (s : List Alphagram) (probs : Nat → Nat),
        (∀ r, orl.failWord r = false) → (∀ r, orl.failAlpha r = false) →
        (∀ a ∈ s, a.alphagram.length ≤ 15) →
        wordRowsOf (mainLoop ctx orl defs probs s).1 =
          s.flatMap (fun a => a.words.map (mkWordRow ctx defs a.alphagram))) := by
  have hp := populate_classes lines combos mkAlph
  refine ⟨?_, ?_, ?_, ?_, ?_⟩
  · intro pr hpr
    obtain ⟨_, hws, hc⟩ := hp.2.1 pr hpr
    exact ⟨hws, by rw [hws, ← List.countP_eq_length_filter], hc⟩
  · intro w
    have hcc := class_count (wordTokens (some lines)) mkAlph w
      (populateAlphsDefs (some lines) combos mkAlph).alphagrams hp.1
      (fun pr hpr => (hp.2.1 pr hpr).2.1)
    rw [hcc]
    by_cases hm : mkAlph w ∈ (populateAlphsDefs (some lines) combos mkAlph).alphagrams.map
        Prod.fst
    · rw [if_pos hm]
    · rw [if_neg hm]
      have hwT : w ∉ wordTokens (some lines) := by
        intro hwTT
        exact hm ((hp.2.2.2 (mkAlph w)).mpr ⟨w, hwTT, rfl⟩)
      exact (List.count_eq_zero.mpr hwT).symm
  · rw [hp.2.2.1]
    exact hp.1
  · intro x
    rw [hp.2.2.1]
    exact hp.2.2.2 x
  · intro ctx orl defs s probs hw ha hlen
    exact mainLoop_word_rows ctx orl defs hw ha s probs hlen

/-- The C10 theorem at the word list ["AB", "AB x"], where the word "AB"
occurs on both lines: the class "AB" holds the member list ["AB", "AB"] (one
entry per occurrence), and the build's word rows are one per member entry. -/
theorem c10_witness :
    (⟨["AB", "AB"], 1, "AB", 0, 0, 0⟩ : Alphagram).words =
        (wordTokens (some ["AB", "AB x"])).filter
          (fun w => (fun w : String => w) w == "AB") ∧
    wordRowsOf (mainLoop ctxDup noFailOracles (defsOf ctxDup) (fun _ => 0)
        (sortedAlphsOf ctxDup)).1 =
      (sortedAlphsOf ctxDup).flatMap
        (fun a => a.words.map (mkWordRow ctxDup (defsOf ctxDup) a.alphagram)) :=
  ⟨((c10_duplicates ["AB", "AB x"] (fun _ _ => 1) (fun w => w)).1
      ("AB", ⟨["AB", "AB"], 1, "AB", 0, 0, 0⟩) (by decide)).1,
    (c10_duplicates ["AB", "AB x"] (fun _ _ => 1) (fun w => w)).2.2.2.2 ctxDup
      noFailOracles (defsOf ctxDup) (sortedAlphsOf ctxDup) (fun _ => 0)
      (fun _ => rfl) (fun _ => rfl) (by decide)⟩

/-- A build whose main loop survived, with deleted-word inserts and the
version insert unable to fail, is not fatal. -/
lemma runBuild_nofatal (ctx : BuildCtx) (orl : Oracles)
    (hm : (mainLoop ctx orl (defsOf ctx) (fun _ => 0) (sortedAlphsOf ctx)).2 = false)
    (hd : ∀ p, orl.failDeleted p = false) (hv : orl.failVersion = false) :
    (runBuild ctx orl).fatal = false := by
  simp only [runBuild, hm]
  by_cases hdw : 0 < (deletedWordsOf ctx).length
  · simp [hdw, deletedLoop_nofail orl hd, hv]
  · simp [hdw, hv]

/-- C1: with no insert failures, every class short enough to rank, and fewer
classes than 2^32, the build succeeds, the processed order is a permutation of
the alphagram classes that is sorted by combination count descending with the
alphagram string ascending as tie-break, and for every length L the committed
cohort of length-L alphagram rows carries, in walk order, the dense
probability ranks 1..K (K = the number of length-L classes), with combination
counts non-increasing along the ranks and rank 1 on a class of maximal
combination count within its cohort. -/
theorem c1_probability_ranking (ctx : BuildCtx) (orl : Oracles)
    (ha : ∀ r, orl.failAlpha r = false)
    (hd : ∀ p, orl.failDeleted p = false)
    (hv : orl.failVersion = false)
    (hlen : ∀ a ∈ sortedAlphsOf ctx, a.alphagram.length ≤ 15)
    (hcard : (sortedAlphsOf ctx).length < 4294967296) :
    (runBuild ctx orl).fatal = false ∧
    (sortedAlphsOf ctx).Perm (alphaMapValues (alphMapOf ctx)) ∧
    (sortedAlphsOf ctx).Pairwise (fun a b =>
      b.combinations ≤ a.combinations ∧
      (b.combinations = a.combinations →
        listLtB b.alphagram.data a.alphagram.data = false)) ∧
    ∀ L,
      countLen (sortedAlphsOf ctx) L =
        ((alphaMapValues (alphMapOf ctx)).filter
            (fun a => a.alphagram.length == L)).length ∧
      ((replay (runBuild ctx orl).trace).alphagrams.filter
          (fun r => r.length == L)).map (fun r => r.probability) =
        List.range' 1 (countLen (sortedAlphsOf ctx) L) ∧
      (((replay (runBuild ctx orl).trace).alphagrams.filter
          (fun r => r.length == L)).map (fun r => r.combinations)).Pairwise
        (fun x y => y ≤ x) ∧
      ∀ r ∈ (replay (runBuild ctx orl).trace).alphagrams.filter
          (fun r => r.length == L),
        r.probability = 1 →
        ∀ r' ∈ (replay (runBuild ctx orl).trace).alphagrams.filter
            (fun r => r.length == L),
          r'.combinations ≤ r.combinations := by
  have hmod : ∀ i, 0 + countLen (sortedAlphsOf ctx) i < 4294967296 := by
    intro i
    have hc := countLen_le_length (sortedAlphsOf ctx) i
    omega
  have hok := mainLoop_ok ctx orl (defsOf ctx) ha (sortedAlphsOf ctx) (fun _ => 0) hlen hmod
  have hfat : (runBuild ctx orl).fatal = false := runBuild_nofatal ctx orl hok.1 hd hv
  have hrep := replay_build ctx orl hfat
  have hra : (replay (runBuild ctx orl).trace).alphagrams =
      alphaRowsOf (mainLoop ctx orl (defsOf ctx) (fun _ => 0) (sortedAlphsOf ctx)).1 := by
    rw [hrep]
  have hsorted : (sortedAlphsOf ctx).Pairwise alphLe :=
    List.sorted_insertionSort alphLe (alphaMapValues (alphMapOf ctx))
  refine ⟨hfat, List.perm_insertionSort alphLe (alphaMapValues (alphMapOf ctx)),
    hsorted.imp (fun hab => (alphLe_iff _ _).mp hab), ?_⟩
  intro L
  have hcoh := hok.2.2 L
  have hpf := hsorted.filter (fun a => a.alphagram.length == L)
  have hcs : (((sortedAlphsOf ctx).filter (fun a => a.alphagram.length == L)).map
      (fun a => a.combinations)).Pairwise (fun x y => y ≤ x) :=
    (List.pairwise_map).mpr (by exact hpf.imp (fun hab => ((alphLe_iff _ _).mp hab).1))
  refine ⟨?_, ?_, ?_, ?_⟩
  · exact ((List.perm_insertionSort alphLe (alphaMapValues (alphMapOf ctx))).filter
      (fun a => a.alphagram.length == L)).length_eq
  · rw [hra]
    have hmap := congrArg (List.map Prod.fst) hcoh
    rw [List.map_map, zipRanks_fst, List.length_map] at hmap
    exact hmap
  · rw [hra]
    have hsnd := congrArg (List.map Prod.snd) hcoh
    rw [List.map_map, zipRanks_snd] at hsnd
    exact hsnd ▸ hcs
  · intro r hr h1 r' hr'
    rw [hra] at hr hr'
    have hpm : (r.probability, r.combinations) ∈ zipRanks 0
        (((sortedAlphsOf ctx).filter (fun a => a.alphagram.length == L)).map
          (fun a => a.combinations)) := by
      have hmm := List.mem_map_of_mem (fun q : AlphaRow => (q.probability, q.combinations)) hr
      rw [hcoh] at hmm
      exact hmm
    have hpm' : (r'.probability, r'.combinations) ∈ zipRanks 0
        (((sortedAlphsOf ctx).filter (fun a => a.alphagram.length == L)).map
          (fun a => a.combinations)) := by
      have hmm := List.mem_map_of_mem (fun q : AlphaRow => (q.probability, q.combinations)) hr'
      rw [hcoh] at hmm
      exact hmm
    rcases zipRanks_rank_one _ _ hpm h1 with ⟨cs', hcs'⟩
    have hmem' : r'.combinations ∈ ((sortedAlphsOf ctx).filter
        (fun a => a.alphagram.length == L)).map (fun a => a.combinations) :=
      zipRanks_snd_mem _ _ _ hpm'
    rw [hcs'] at hcs hmem'
    rcases List.mem_cons.mp hmem' with heq | hmem''
    · exact le_of_eq heq
    · exact List.rel_of_pairwise_cons hcs hmem''

/-- The C1 theorem at the tiny lexicon whose word list is the single line
"AB" with failure-free statements: the build is not fatal and the length-2
cohort of committed alphagram rows carries the dense ranks 1..K. -/
theorem c1_witness :
    (runBuild ctxTiny noFailOracles).fatal = false ∧
    ((replay (runBuild ctxTiny noFailOracles).trace).alphagrams.filter
        (fun r => r.length == 2)).map (fun r => r.probability) =
      List.range' 1 (countLen (sortedAlphsOf ctxTiny) 2) :=
  ⟨(c1_probability_ranking ctxTiny noFailOracles (fun _ => rfl) (fun _ => rfl) rfl
      (by decide) (by decide)).1,
    ((c1_probability_ranking ctxTiny noFailOracles (fun _ => rfl) (fun _ => rfl) rfl
      (by decide) (by decide)).2.2.2 2).2.1⟩

end WordDb










